import Mathlib

/-!
Verification of the SDMS repository (src/SDMS/DataHandler.py, src/SDMS/FileManager.py).

The Python code is shallowly embedded: strings become `List Char`, Python float
values become the inductive `PyFloat` (decimal literals are read exactly into `ℚ`;
IEEE rounding is not modelled, which no claim here depends on), UTC instants become
rational POSIX seconds, raised exceptions become `Except`/`Option` results, and
`warnings.warn` becomes an `Option Warn` component of the result.  Filesystem side
effects (`mkdir`) are not modelled; claims are about the computed paths and states.
-/

set_option maxRecDepth 100000
set_option linter.unusedVariables false
set_option linter.deprecated false

namespace SDMS

/-! ## Python string primitives (faithful models of the `str` methods used) -/

abbrev LChar := List Char

/-- Whitespace as recognised by Python's `str.strip` / `float` (ASCII subset). -/
def pyWs (c : Char) : Bool :=
  c = ' ' ∨ c = '\t' ∨ c = '\n' ∨ c = '\r' ∨ c = '\x0b' ∨ c = '\x0c'

/-- ASCII decimal digit test. -/
def isDig (c : Char) : Bool := '0' ≤ c ∧ c ≤ '9'

/-- Remove leading whitespace (left half of `str.strip`). -/
def trimLeft (s : LChar) : LChar := s.dropWhile pyWs

/-- Remove trailing whitespace (right half of `str.strip`). -/
def trimRight (s : LChar) : LChar := (s.reverse.dropWhile pyWs).reverse

/-- Python `str.strip()`. -/
def pyStrip (s : LChar) : LChar := trimLeft (trimRight s)

/-- Auxiliary for `pySplit`: first segment and remaining segments. -/
def pySplitA (sep : Char) : LChar → LChar × List LChar
  | [] => ([], [])
  | c :: rest =>
    let r := pySplitA sep rest
    if c = sep then ([], r.1 :: r.2) else (c :: r.1, r.2)

/-- Python `str.split(sep)` for a one-character separator: `"".split(",") = [""]`,
`"a,".split(",") = ["a", ""]`, etc. -/
def pySplit (sep : Char) (s : LChar) : List LChar :=
  (pySplitA sep s).1 :: (pySplitA sep s).2

/-- Python `str.replace(pat, repl)`: left-to-right, non-overlapping occurrences.
The scan does not revisit replacement text.  (Guarded on `pat ≠ []`; all uses in
this development have a non-empty pattern, as does the source.) -/
def pyReplace (pat repl : LChar) : LChar → LChar
  | [] => []
  | c :: rest =>
    if h : pat ≠ [] ∧ pat.isPrefixOf (c :: rest) then
      repl ++ pyReplace pat repl ((c :: rest).drop pat.length)
    else
      c :: pyReplace pat repl rest
termination_by s => s.length
decreasing_by
  · simp only [List.length_drop, List.length_cons]
    have : 0 < pat.length := List.length_pos.mpr h.1
    omega
  · simp only [List.length_cons]; omega

/-- Python slice `s[-n:]` (for `n > 0`): the last `min n (len s)` elements. -/
def takeRight (s : LChar) (n : Nat) : LChar := s.drop (s.length - n)

/-- Value of a digit string, most significant first. -/
def decVal (ds : LChar) : ℕ := ds.foldl (fun a c => 10 * a + (c.toNat - '0'.toNat)) 0

/-- Exponent suffix of a Python float literal: either empty, or
`e`/`E`, optional sign, then one or more digits and nothing else. -/
def parseExp (m : ℚ) (s : LChar) : Option ℚ :=
  match s with
  | [] => some m
  | e :: rest =>
    if e = 'e' ∨ e = 'E' then
      let ds := if rest.head? = some '+' ∨ rest.head? = some '-' then rest.tail else rest
      if ds ≠ [] ∧ ds.all isDig then
        some (m * (10 : ℚ) ^
          (if rest.head? = some '-' then -(decVal ds : ℤ) else (decVal ds : ℤ)))
      else none
    else none

/-- Decimal part of a Python float literal (sign and surrounding whitespace already
removed): digits with optional fraction, optional exponent; at least one mantissa
digit required.  Digit-group underscores are not modelled. -/
def parseDecimal (s : LChar) : Option ℚ :=
  let ip := s.takeWhile isDig
  let r1 := s.dropWhile isDig
  if r1.head? = some '.' then
    let r2 := r1.tail
    let fp := r2.takeWhile isDig
    let r3 := r2.dropWhile isDig
    if ip.isEmpty ∧ fp.isEmpty then none
    else parseExp ((decVal ip : ℚ) + (decVal fp : ℚ) / (10 : ℚ) ^ fp.length) r3
  else if ip.isEmpty then none else parseExp (decVal ip) r1

/-- Model of a Python float value as far as this program observes it: NaN, ±inf,
or an exact rational (IEEE rounding of decimal literals is not modelled). -/
inductive PyFloat where
  | nan : PyFloat
  | inf : PyFloat
  | ninf : PyFloat
  | num : ℚ → PyFloat
deriving DecidableEq

/-- Body of `float()` after stripping and sign removal: the special words
`nan` / `inf` / `infinity` (case-insensitive) or a decimal literal. -/
def pyFloatBody (neg : Bool) (s : LChar) : Option PyFloat :=
  let low := s.map Char.toLower
  if low = ['n', 'a', 'n'] then some PyFloat.nan
  else if low = ['i', 'n', 'f'] ∨ low = ['i', 'n', 'f', 'i', 'n', 'i', 't', 'y'] then
    some (if neg then PyFloat.ninf else PyFloat.inf)
  else (parseDecimal s).map (fun q => PyFloat.num (if neg then -q else q))

/-- Python `float(str)`: strip whitespace, optional sign, then body.
`none` models a raised `ValueError`. -/
def pyFloat? (t : LChar) : Option PyFloat :=
  let s := pyStrip t
  if s.head? = some '+' then pyFloatBody false s.tail
  else if s.head? = some '-' then pyFloatBody true s.tail
  else pyFloatBody false s

/-- Python `int(str)` (base 10): strip, optional sign, one or more digits.
`none` models a raised `ValueError`.  Digit-group underscores are not modelled. -/
def pyInt? (t : LChar) : Option ℤ :=
  let s := pyStrip t
  let ds := if s.head? = some '+' ∨ s.head? = some '-' then s.tail else s
  if ds ≠ [] ∧ ds.all isDig then
    some (if s.head? = some '-' then -(decVal ds : ℤ) else (decVal ds : ℤ))
  else none

/-- Python `int(float)`: truncation toward zero.  On the canonical form
`num/den` with positive denominator this is `tdiv`. -/
def pyTrunc (q : ℚ) : ℤ := q.num.tdiv q.den

/-- Python list indexing `l[i]` with negative-index wrap-around;
`none` models an `IndexError`. -/
def pyIndex (l : List α) (i : ℤ) : Option α :=
  if 0 ≤ i then l.get? i.toNat
  else if 0 ≤ i + l.length then l.get? (i + l.length).toNat
  else none

/-! ## DataHandler.py: LaserMetaData -/

/-- Exceptions this embedding distinguishes (`ValueError`, `KeyError`,
`IndexError`). -/
inductive PyErr where
  | valueError : PyErr
  | keyError : ℤ → PyErr
  | indexError : PyErr
deriving DecidableEq

/-- Decidable equality of `Except` results, used to evaluate concrete runs. -/
instance instDecEqExcept {ε α : Type} [DecidableEq ε] [DecidableEq α] :
    DecidableEq (Except ε α)
  | Except.ok a, Except.ok b =>
    if h : a = b then isTrue (by rw [h]) else isFalse (by intro hh; cases hh; exact h rfl)
  | Except.error a, Except.error b =>
    if h : a = b then isTrue (by rw [h]) else isFalse (by intro hh; cases hh; exact h rfl)
  | Except.ok _, Except.error _ => isFalse (by intro hh; cases hh)
  | Except.error _, Except.ok _ => isFalse (by intro hh; cases hh)

/-- Model of `LaserMetaData.SamplingRates`: sampling-cycle code to duration in
microseconds (`2.55 * u.us`, ... , `1000 * u.us`). -/
def SamplingRates (c : ℤ) : Option ℚ :=
  if c = 0 then some (51 / 20)
  else if c = 1 then some 5
  else if c = 2 then some 10
  else if c = 3 then some 20
  else if c = 4 then some 50
  else if c = 5 then some 100
  else if c = 6 then some 200
  else if c = 7 then some 500
  else if c = 8 then some 1000
  else none

/-- Model of `LaserMetaData.RawConfig`: ordered field-name/command-prefix pairs.
The `OUT = "01"` interpolation of the source's f-strings is written out. -/
def RawConfig : List (LChar × LChar) :=
  [("Tolerance".data, "SW,LM,01,".data),
   ("SetStorage".data, "SW,OK,01,".data),
   ("SurfaceToBeMeasured".data, "SW,OA,T,01,".data),
   ("Scaling".data, "SW,OB,01,".data),
   ("Filter".data, "SW,OC,01,0,".data),
   ("MeasurementModeSensor".data, "SW,OD,01,".data),
   ("MeasurementModeTarget".data, "SW,HB,01,".data),
   ("TriggerMode".data, "SW,OE,M,01,".data),
   ("Offset".data, "SW,OF,01,".data),
   ("MeasurementType".data, "SW,OI,01,".data),
   ("SamplingCycle".data, "SW,CA,".data),
   ("DataStorage".data, "SW,CF,".data)]

/-- Model of `LaserMetaData.Programs`: the one-entry program catalog, each program a
tuple of positional values aligned with `RawConfig`. -/
def Programs : List (List LChar) :=
  [["+500.000, -500.000, 0000.000".data,
    "1".data,
    "0".data,
    "+000.000, +000.000, +999.999, +999.999".data,
    "0".data,
    "0".data,
    "0".data,
    "4".data,
    "+000.000".data,
    "0".data,
    "8".data,
    "0060000,1".data]]

/-- The state of a `LaserMetaData` object: the twelve configuration entries
stored in the dict, plus the selected program index. -/
structure LaserMetaData where
  Tolerance : LChar
  SetStorage : LChar
  SurfaceToBeMeasured : LChar
  Scaling : LChar
  Filter : LChar
  MeasurementModeSensor : LChar
  MeasurementModeTarget : LChar
  TriggerMode : LChar
  Offset : LChar
  MeasurementType : LChar
  SamplingCycle : LChar
  DataStorage : LChar
  CurrentProgram : ℤ
deriving DecidableEq

/-- Model of `LaserMetaData.CurrentConfig`: zip the template prefixes with the active
program's positional values; `none` models the `IndexError` a nonexistent
index would raise. -/
def LaserMetaData.CurrentConfig (m : LaserMetaData) : Option (List (LChar × LChar)) :=
  (pyIndex Programs m.CurrentProgram).map
    (fun prog => List.zipWith (fun kp v => (kp.1, kp.2 ++ v)) RawConfig prog)

/-- Assoc-list lookup used to model reading the config dict by key. -/
def alook (cfg : List (LChar × LChar)) (k : LChar) : Option LChar :=
  (cfg.find? (fun p => p.1 = k)).map (fun p => p.2)

/-- Model of `self.update(config)`: the config produced by `CurrentConfig`
carries exactly the twelve template keys, so updating sets each field from
its key. -/
def updateFields (m : LaserMetaData) (cfg : List (LChar × LChar)) : LaserMetaData :=
  { m with
    Tolerance := (alook cfg "Tolerance".data).getD m.Tolerance
    SetStorage := (alook cfg "SetStorage".data).getD m.SetStorage
    SurfaceToBeMeasured := (alook cfg "SurfaceToBeMeasured".data).getD m.SurfaceToBeMeasured
    Scaling := (alook cfg "Scaling".data).getD m.Scaling
    Filter := (alook cfg "Filter".data).getD m.Filter
    MeasurementModeSensor := (alook cfg "MeasurementModeSensor".data).getD m.MeasurementModeSensor
    MeasurementModeTarget := (alook cfg "MeasurementModeTarget".data).getD m.MeasurementModeTarget
    TriggerMode := (alook cfg "TriggerMode".data).getD m.TriggerMode
    Offset := (alook cfg "Offset".data).getD m.Offset
    MeasurementType := (alook cfg "MeasurementType".data).getD m.MeasurementType
    SamplingCycle := (alook cfg "SamplingCycle".data).getD m.SamplingCycle
    DataStorage := (alook cfg "DataStorage".data).getD m.DataStorage }

/-- Model of `LaserMetaData.change_program`: reject `program >= len(Programs)` with a
`ValueError` before any mutation; otherwise store the new index and re-derive
the fields.  (The source has no lower-bound check; a negative index reaches
Python's wrap-around list indexing.)  The second component is the exception
raised, if any; on an `IndexError` the index has already been stored. -/
def LaserMetaData.change_program (program : ℤ) (m : LaserMetaData) :
    LaserMetaData × Option PyErr :=
  if program ≥ (Programs.length : ℤ) then (m, some PyErr.valueError)
  else
    match ({ m with CurrentProgram := program } : LaserMetaData).CurrentConfig with
    | some cfg => (updateFields { m with CurrentProgram := program } cfg, none)
    | none => ({ m with CurrentProgram := program }, some PyErr.indexError)

/-- Model of `LaserMetaData.__init__()`: twelve `"undefined"` fields, program 0,
then `update(CurrentConfig)`. -/
def metaInit : LaserMetaData :=
  let u := "undefined".data
  let m0 : LaserMetaData := ⟨u, u, u, u, u, u, u, u, u, u, u, u, 0⟩
  updateFields m0 (m0.CurrentConfig.getD [])

/-- Model of `LaserMetaData.dt`: look up the integer suffix of `SamplingCycle` in
`SamplingRates` and convert microseconds to seconds.  `valueError` models the
`int()` failure, `keyError` the missing table entry. -/
def LaserMetaData.dt (m : LaserMetaData) : Except PyErr ℚ :=
  match pyInt? ((pySplit ',' m.SamplingCycle).getLastD []) with
  | none => Except.error PyErr.valueError
  | some c =>
    match SamplingRates c with
    | none => Except.error (PyErr.keyError c)
    | some r => Except.ok (r / 1000000)

/-- Model of `LaserMetaData.Frequency`: `int(1 / dt)`. -/
def LaserMetaData.Frequency (m : LaserMetaData) : Except PyErr ℤ :=
  (m.dt).map (fun δ => pyTrunc (1 / δ))

/-- Model of `LaserMetaData.StorageSize`: `int(DataStorage.split(",")[-2])`. -/
def LaserMetaData.StorageSize (m : LaserMetaData) : Except PyErr ℤ :=
  match pyIndex (pySplit ',' m.DataStorage) (-2) with
  | none => Except.error PyErr.indexError
  | some tok =>
    match pyInt? tok with
    | none => Except.error PyErr.valueError
    | some n => Except.ok n

/-- Model of `LaserMetaData.WaitingTime`: `int(dt.value * StorageSize)`. -/
def LaserMetaData.WaitingTime (m : LaserMetaData) : Except PyErr ℤ := do
  let δ ← m.dt
  let n ← m.StorageSize
  pure (pyTrunc (δ * (n : ℚ)))

/-! ## DataHandler.py: LaserData -/

/-- Warnings issued via `warnings.warn`.  `invalidStr` carries the
`data[:10]`/`data[-10:]` slices of the raw frame string (the parse failed
before `data` was rebound); `invalidList` carries slices of the parsed list
(the rare case where `insert` itself raises `ValueError`); `dataQuality` is
the NaN-substitution warning of `timeseries`. -/
inductive Warn where
  | invalidStr : LChar → LChar → Warn
  | invalidList : List PyFloat → List PyFloat → Warn
  | dataQuality : Warn
deriving DecidableEq

/-- The state of a `LaserData` object; times are UTC POSIX seconds as `ℚ`. -/
structure LaserData where
  Data : List PyFloat
  MetaData : LaserMetaData
  StartTime : ℚ
  EndTime : ℚ
deriving DecidableEq

/-- Fresh `LaserData()` at instant `now` (both `nowUTC()` calls of
`__init__` collapse to the construction instant). -/
def LaserData.mkAt (now : ℚ) : LaserData :=
  ⟨[], metaInit, now, now⟩

/-- Model of `LaserData.has_nan`: `np.isnan(Data).any()` (infinities are not NaN). -/
def LaserData.has_nan (d : LaserData) : Bool :=
  d.Data.any (fun v => v = PyFloat.nan)

/-- Model of `LaserData.insert`: extend the buffer, stamp `EndTime := now`, recompute
`StartTime = EndTime - len(Data) * dt`.  If the `dt` property raises, the
exception is returned with the state as mutated so far (buffer extended and
`EndTime` set, `StartTime` stale) — matching the source's statement order. -/
def LaserData.insert (d : LaserData) (samples : List PyFloat) (now : ℚ) :
    LaserData × Option PyErr :=
  let data' := d.Data ++ samples
  match d.MetaData.dt with
  | Except.ok δ =>
    ({ d with Data := data', EndTime := now,
              StartTime := now - (data'.length : ℚ) * δ }, none)
  | Except.error e =>
    ({ d with Data := data', EndTime := now }, some e)

/-- The sentinel bit-pattern for a missing reading. -/
def sentinel : LChar := "FFFFFFF".data

/-- Model of `"nan"`, the sentinel's replacement text. -/
def nanStr : LChar := "nan".data

/-- The token list `parse_insert` actually maps `float` over:
`data.replace("FFFFFFF", "nan").strip().split(",")[1:]`. -/
def pipelineTokens (s : LChar) : List LChar :=
  (pySplit ',' (pyStrip (pyReplace sentinel nanStr s))).drop 1

/-- The raw sample tokens of a frame: comma-split of the (stripped) frame,
first (metadata) token discarded — the frame as the spec talks about it,
before sentinel substitution. -/
def sampleTokens (s : LChar) : List LChar :=
  (pySplit ',' (pyStrip s)).drop 1

/-- Model of `list(map(float, tokens))`: all tokens must parse or the whole
conversion raises (`none`). -/
def floatList : List LChar → Option (List PyFloat)
  | [] => some []
  | t :: ts =>
    match pyFloat? t with
    | none => none
    | some v => (floatList ts).map (fun vs => v :: vs)

/-- Model of `LaserData.parse_insert`: map `float` over the pipeline tokens; on any
`ValueError` warn with the first/last 10 characters of the raw frame and leave
the state alone; otherwise insert.  A `ValueError` out of `insert` (bad
sampling-cycle suffix) is caught by the same handler, with `data` then bound
to the parsed list; other exceptions propagate (`Except.error`). -/
def LaserData.parse_insert (d : LaserData) (s : LChar) (now : ℚ) :
    Except PyErr (LaserData × Option Warn) :=
  match floatList (pipelineTokens s) with
  | none => Except.ok (d, some (Warn.invalidStr (s.take 10) (takeRight s 10)))
  | some vals =>
    match d.insert vals now with
    | (d', none) => Except.ok (d', none)
    | (d', some PyErr.valueError) =>
      Except.ok (d', some (Warn.invalidList (vals.take 10)
        (vals.drop (vals.length - 10))))
    | (_, some e) => Except.error e

/-- Model of `np.nan_to_num` with default arguments: NaN to zero, infinities to the
largest finite double and its negation.  `maxFloat` is the largest finite
IEEE double `(2^53 - 1) * 2^971`, written out so it evaluates without
iterated exponentiation. -/
def maxFloat : ℚ := 179769313486231570814527423731704356798070567525844996598917476803157260780028538760589558632766878171540458953514382464234321326889464182768467546703537516986049910576551282076245490090389328944075868508455133942304583236903222948165808559332123348274797826204144723168738177180919299881250404026184124858368

/-- Pointwise `np.nan_to_num`. -/
def nanToNum : PyFloat → PyFloat
  | PyFloat.nan => PyFloat.num 0
  | PyFloat.inf => PyFloat.num maxFloat
  | PyFloat.ninf => PyFloat.num (-maxFloat)
  | v => v

/-- The arguments `timeseries` hands to the external `TimeSeries` type:
samples, `t0 = StartTime.timestamp()`, sampling interval `dt` (micrometre unit
and name are fixed and carry no information). -/
structure TimeSeriesM where
  data : List PyFloat
  t0 : ℚ
  dtv : ℚ
deriving DecidableEq

/-- Model of `LaserData.timeseries`: if the buffer has a NaN, warn and substitute via
`nan_to_num`, else pass the buffer unchanged; reads only, no mutation.
A `dt` failure propagates as an exception. -/
def LaserData.timeseries (d : LaserData) : Except PyErr (TimeSeriesM × Option Warn) :=
  match d.MetaData.dt with
  | Except.error e => Except.error e
  | Except.ok δ =>
    if d.has_nan then
      Except.ok (⟨d.Data.map nanToNum, d.StartTime, δ⟩, some Warn.dataQuality)
    else Except.ok (⟨d.Data, d.StartTime, δ⟩, none)

/-! ## FileManager.py -/

/-- A UTC calendar date (year, month, day). -/
structure DateT where
  year : ℕ
  month : ℕ
  day : ℕ
deriving DecidableEq

/-- Model of `FileManager.tags`: the recognised tag table (an identity mapping). -/
def tagLookup (k : LChar) : Option LChar :=
  if k = "test".data then some "test".data
  else if k = "experiment".data then some "experiment".data
  else if k = "calibration".data then some "calibration".data
  else if k = "temp".data then some "temp".data
  else none

/-- Model of `"{:04d}"`-style zero padding of a natural number. -/
def padNum (w : ℕ) (n : ℕ) : LChar :=
  let ds := Nat.toDigits 10 n
  List.replicate (w - ds.length) '0' ++ ds

/-- The `"{:04d}/{:02d}/{:02d}"` date segment. -/
def fmtDate (d : DateT) : LChar :=
  padNum 4 d.year ++ '/' :: padNum 2 d.month ++ '/' :: padNum 2 d.day

/-- The state of a `FileManager` (the `mkdir` side effects are not modelled). -/
structure FileManager where
  root_path : LChar
  current_date : Option DateT
  current_path : LChar
  current_full_path : LChar
deriving DecidableEq

/-- Model of `FileManager.__init__`. -/
def FileManager.mkAt (root : LChar) : FileManager :=
  ⟨root, none, "temp".data, root ++ '/' :: "temp".data⟩

/-- Tag normalisation: `tag.strip().lower()`. -/
def normTag (tag : LChar) : LChar := (pyStrip tag).map Char.toLower

/-- Model of `FileManager.filepath` after tag normalisation: refresh the cached date
segment if the date changed, prepend the (known or default) tag to the cached
relative path, join with the root, cache and return. -/
def filepathAux (fm : FileManager) (today : DateT) (tagN : LChar) :
    FileManager × LChar :=
  let p1 := if fm.current_date = some today then fm.current_path else fmtDate today
  let p2 := ((tagLookup tagN).getD "test".data) ++ '/' :: p1
  let full := fm.root_path ++ '/' :: p2
  (⟨fm.root_path, some today, p2, full⟩, full)

/-- Model of `FileManager.filepath(tag)` at the instant whose UTC date is `today`:
returns the updated manager and the path it returns (directory creation is
idempotent and not modelled). -/
def FileManager.filepath (fm : FileManager) (today : DateT) (tag : LChar) :
    FileManager × LChar :=
  filepathAux fm today (normTag tag)

/-! ## Auxiliary notions used to state the claims -/

/-- No two adjacent capital `F`s (no token accepted by `float` contains the
7-character sentinel, whose occurrences need adjacent `F`s). -/
def noFF : LChar → Bool
  | c1 :: c2 :: rest => (!(c1 == 'F' && c2 == 'F')) && noFF (c2 :: rest)
  | _ => true

/-- The value the specification assigns to a sample token: NaN for the
sentinel, its float value for a numeric token. -/
def claimValue (t : LChar) : PyFloat :=
  if t = sentinel then PyFloat.nan else (pyFloat? t).getD PyFloat.nan

/-- Rejoin a token list with commas (used to compare a diagnostic payload
against "the first 10 raw tokens"). -/
def joinComma (l : List LChar) : LChar := (l.intersperse [',']).flatten

/-- The last 10 elements of a token list (used to compare a diagnostic
payload against "the last 10 raw tokens"). -/
def takeRight10L (l : List LChar) : List LChar := l.drop (l.length - 10)

/-! ## Lemmas about `pyReplace` -/

theorem pyReplace_nil (pat repl : LChar) : pyReplace pat repl [] = [] := by
  simp [pyReplace]

theorem pyReplace_cons (pat repl : LChar) (c : Char) (rest : LChar) :
    pyReplace pat repl (c :: rest) =
      if pat ≠ [] ∧ pat.isPrefixOf (c :: rest) then
        repl ++ pyReplace pat repl ((c :: rest).drop pat.length)
      else c :: pyReplace pat repl rest := by
  rw [pyReplace]
  exact dite_eq_ite

/-- A string none of whose characters occur in the (non-empty) pattern is
left unchanged by `pyReplace`. -/
theorem pyReplace_eq_self_of_disjoint (pat repl s : LChar) (hp : pat ≠ [])
    (h : ∀ c ∈ s, c ∉ pat) : pyReplace pat repl s = s := by
  induction s with
  | nil => exact pyReplace_nil pat repl
  | cons c rest ih =>
    rw [pyReplace_cons]
    have hnp : ¬(pat ≠ [] ∧ pat.isPrefixOf (c :: rest)) := by
      rintro ⟨-, hpre⟩
      obtain ⟨p0, ps, rfl⟩ : ∃ p0 ps, pat = p0 :: ps := by
        cases pat with
        | nil => exact absurd rfl hp
        | cons p0 ps => exact ⟨p0, ps, rfl⟩
      have hpre' : p0 :: ps <+: c :: rest := List.isPrefixOf_iff_prefix.mp hpre
      have : p0 = c := (List.cons_prefix_cons.mp hpre').1
      exact h c (List.mem_cons_self _ _) (this ▸ List.mem_cons_self _ _)
    rw [if_neg hnp]
    exact congrArg (c :: ·) (ih (fun c hc => h c (List.mem_cons_of_mem _ hc)))

/-- If the pattern is a prefix of `a ++ b` but longer than `a`, its characters
reach into `b`: `b` starts with a character of the pattern. -/
theorem head_mem_of_prefix_append (pat a b : LChar) (h : pat <+: a ++ b)
    (hlen : a.length < pat.length) : ∃ c, b.head? = some c ∧ c ∈ pat := by
  have ha : a <+: pat :=
    List.prefix_of_prefix_length_le (List.prefix_append a b) h (Nat.le_of_lt hlen)
  obtain ⟨q, rfl⟩ := ha
  obtain ⟨t, ht⟩ := h
  have ht' : a ++ (q ++ t) = a ++ b := by rw [← List.append_assoc]; exact ht
  have hq : q ++ t = b := List.append_cancel_left ht'
  cases q with
  | nil => simp at hlen
  | cons q0 q' =>
    refine ⟨q0, ?_, List.mem_append_right a (List.mem_cons_self _ _)⟩
    rw [← hq]; rfl

/-- Model of `pyReplace` distributes over an append whose right part starts with a
character outside the pattern and is itself untouched by the replacement. -/
theorem pyReplace_append_frozen (pat repl : LChar) (hp : pat ≠ []) :
    ∀ (a b : LChar), (∀ c, b.head? = some c → c ∉ pat) →
      pyReplace pat repl b = b →
      pyReplace pat repl (a ++ b) = pyReplace pat repl a ++ b := by
  suffices H : ∀ (n : ℕ) (a b : LChar), a.length ≤ n →
      (∀ c, b.head? = some c → c ∉ pat) → pyReplace pat repl b = b →
      pyReplace pat repl (a ++ b) = pyReplace pat repl a ++ b by
    intro a b hb hfix
    exact H a.length a b le_rfl hb hfix
  intro n
  induction n with
  | zero =>
    intro a b ha hb hfix
    have : a = [] := List.length_eq_zero.mp (Nat.le_zero.mp ha)
    subst this
    simpa [pyReplace_nil] using hfix
  | succ n ih =>
    intro a b ha hb hfix
    cases a with
    | nil => simpa [pyReplace_nil] using hfix
    | cons c rest =>
      by_cases hpre : pat.isPrefixOf ((c :: rest) ++ b)
      · -- the match cannot reach into `b`
        have hple : pat.length ≤ (c :: rest).length := by
          by_contra hlt
          obtain ⟨ch, hch, hmem⟩ := head_mem_of_prefix_append pat (c :: rest) b
            ( List.isPrefixOf_iff_prefix.mp hpre) (Nat.lt_of_not_le hlt)
          exact hb ch hch hmem
        have hpre2 : pat.isPrefixOf (c :: rest) := by
          rw [ List.isPrefixOf_iff_prefix] at hpre ⊢
          exact List.prefix_of_prefix_length_le hpre
            (List.prefix_append (c :: rest) b) hple
        rw [show (c :: rest) ++ b = c :: (rest ++ b) from rfl, pyReplace_cons,
          if_pos ⟨hp, by simpa using hpre⟩, pyReplace_cons, if_pos ⟨hp, hpre2⟩]
        have hdrop : (c :: (rest ++ b)).drop pat.length =
            (c :: rest).drop pat.length ++ b := by
          simpa using List.drop_append_of_le_length hple
        rw [hdrop, List.append_assoc]
        refine congrArg (repl ++ ·) (ih _ b ?_ hb hfix)
        have h1 : ((c :: rest).drop pat.length).length =
            (c :: rest).length - pat.length := List.length_drop _ _
        have h2 : 0 < pat.length := List.length_pos.mpr hp
        simp only [List.length_cons] at ha h1 ⊢
        omega
      · have hpre2 : ¬ pat.isPrefixOf (c :: rest) := by
          intro hx
          exact hpre (by
            rw [ List.isPrefixOf_iff_prefix] at hx ⊢
            exact hx.trans (List.prefix_append (c :: rest) b))
        rw [show (c :: rest) ++ b = c :: (rest ++ b) from rfl, pyReplace_cons,
          if_neg (fun hcon => hpre hcon.2), pyReplace_cons,
          if_neg (fun hcon => hpre2 hcon.2)]
        have : pyReplace pat repl (rest ++ b) = pyReplace pat repl rest ++ b := by
          refine ih rest b ?_ hb hfix
          simp only [List.length_cons] at ha
          omega
        rw [this]; rfl

/-! ## Lemmas about `trimLeft`, `trimRight`, `pyStrip` and their interaction
with `pyReplace` -/

/-- The head of a `dropWhile` result fails the predicate. -/
theorem dropWhile_head_false (p : Char → Bool) :
    ∀ (l : List Char) (z : Char) (zs : List Char),
      l.dropWhile p = z :: zs → p z = false := by
  intro l
  induction l with
  | nil => intro z zs h; cases h
  | cons a as iha =>
    intro z zs h
    rw [List.dropWhile_cons] at h
    by_cases ha : p a = true
    · rw [if_pos ha] at h; exact iha z zs h
    · rw [if_neg ha] at h
      cases h
      exact Bool.eq_false_iff.mpr ha

theorem dropWhile_eq_self_of_head (p : Char → Bool) (l : List Char)
    (h : ∀ c, l.head? = some c → p c = false) : l.dropWhile p = l := by
  cases l with
  | nil => rfl
  | cons c rest =>
    rw [List.dropWhile_cons, if_neg (by rw [h c rfl]; simp)]

theorem trimLeft_eq_self (s : LChar)
    (h : ∀ c, s.head? = some c → pyWs c = false) : trimLeft s = s :=
  dropWhile_eq_self_of_head pyWs s h

theorem trimRight_eq_self (s : LChar)
    (h : ∀ c, s.getLast? = some c → pyWs c = false) : trimRight s = s := by
  unfold trimRight
  rw [dropWhile_eq_self_of_head pyWs s.reverse
    (fun c hc => h c (by rwa [List.head?_reverse] at hc))]
  exact List.reverse_reverse s

/-- Splitting off the trailing whitespace run. -/
theorem trimRight_decomp (s : LChar) :
    ∃ w, s = trimRight s ++ w ∧ ∀ c ∈ w, pyWs c = true := by
  refine ⟨(s.reverse.takeWhile pyWs).reverse, ?_, ?_⟩
  · conv_lhs => rw [← List.reverse_reverse s, ← List.takeWhile_append_dropWhile pyWs s.reverse]
    rw [List.reverse_append]
    rfl
  · intro c hc
    exact List.mem_takeWhile_imp (List.mem_reverse.mp hc)

/-- The right-trimmed string does not end in whitespace. -/
theorem trimRight_getLast (s : LChar) :
    ∀ c, (trimRight s).getLast? = some c → pyWs c = false := by
  intro c hc
  unfold trimRight at hc
  rw [List.getLast?_reverse] at hc
  cases hd : s.reverse.dropWhile pyWs with
  | nil => rw [hd] at hc; cases hc
  | cons x t =>
    rw [hd] at hc
    have hx : x = c := by
      have : some x = some c := hc
      exact Option.some.inj this
    subst hx
    exact dropWhile_head_false pyWs s.reverse x t hd

/-- The left-trimmed string does not start with whitespace. -/
theorem trimLeft_head (s : LChar) :
    ∀ c, (trimLeft s).head? = some c → pyWs c = false := by
  intro c hc
  induction s with
  | nil => cases hc
  | cons a as ih =>
    rw [show trimLeft (a :: as) = List.dropWhile pyWs (a :: as) from rfl,
      List.dropWhile_cons] at hc
    by_cases ha : pyWs a = true
    · rw [if_pos ha] at hc; exact ih hc
    · rw [if_neg ha] at hc
      cases hc
      exact Bool.eq_false_iff.mpr ha

/-- Splitting off the leading whitespace run. -/
theorem trimLeft_decomp (s : LChar) :
    ∃ w, s = w ++ trimLeft s ∧ ∀ c ∈ w, pyWs c = true := by
  refine ⟨s.takeWhile pyWs, (List.takeWhile_append_dropWhile pyWs s).symm, ?_⟩
  intro c hc
  exact List.mem_takeWhile_imp hc

theorem trimLeft_append_ws (w x : LChar) (hw : ∀ c ∈ w, pyWs c = true) :
    trimLeft (w ++ x) = trimLeft x := by
  induction w with
  | nil => rfl
  | cons a as ih =>
    have ha := hw a (List.mem_cons_self _ _)
    rw [show trimLeft ((a :: as) ++ x) = List.dropWhile pyWs (a :: (as ++ x)) from rfl,
      List.dropWhile_cons, if_pos ha]
    exact ih (fun c hc => hw c (List.mem_cons_of_mem _ hc))

theorem trimRight_append_ws (x w : LChar) (hw : ∀ c ∈ w, pyWs c = true)
    (hx : ∀ c, x.getLast? = some c → pyWs c = false) :
    trimRight (x ++ w) = x := by
  unfold trimRight
  rw [List.reverse_append, List.dropWhile_append]
  have h1 : List.dropWhile pyWs w.reverse = [] :=
    List.dropWhile_eq_nil_iff.mpr (fun c hc => hw c (List.mem_reverse.mp hc))
  rw [h1]
  simp only [List.isEmpty_nil, if_pos]
  rw [dropWhile_eq_self_of_head pyWs x.reverse
    (fun c hc => hx c (by rwa [List.head?_reverse] at hc))]
  exact List.reverse_reverse x

theorem getLast?_some_of_ne_nil {α : Type} (l : List α) (h : l ≠ []) :
    ∃ c, l.getLast? = some c := by
  cases hl : l.getLast? with
  | none => exact absurd (List.getLast?_eq_none_iff.mp hl) h
  | some c => exact ⟨c, rfl⟩

theorem getLast?_cons_of_ne_nil {α : Type} (c : α) (rest : List α) (h : rest ≠ []) :
    (c :: rest).getLast? = rest.getLast? := by
  cases rest with
  | nil => exact absurd rfl h
  | cons b bs => exact List.getLast?_cons_cons

theorem mem_of_getLast?_some {α : Type} {l : List α} {c : α}
    (h : l.getLast? = some c) : c ∈ l := by
  obtain ⟨ys, rfl⟩ := List.getLast?_eq_some_iff.mp h
  exact List.mem_append_right ys (List.mem_cons_self _ _)

/-- The pattern, when it matches at the head, determines the head character. -/
theorem head_eq_of_isPrefixOf (pat : LChar) (c : Char) (rest : LChar) (hp : pat ≠ [])
    (h : pat.isPrefixOf (c :: rest) = true) : c ∈ pat := by
  obtain ⟨p0, ps, rfl⟩ : ∃ p0 ps, pat = p0 :: ps := by
    cases pat with
    | nil => exact absurd rfl hp
    | cons p0 ps => exact ⟨p0, ps, rfl⟩
  have hpre : p0 :: ps <+: c :: rest := List.isPrefixOf_iff_prefix.mp h
  have : p0 = c := (List.cons_prefix_cons.mp hpre).1
  exact this ▸ List.mem_cons_self _ _

/-- Model of `pyReplace` keeps a whitespace-free head whitespace-free (for a non-empty
whitespace-free replacement). -/
theorem pyReplace_head_not_ws (pat repl s : LChar) (hr : repl ≠ [])
    (hrw : ∀ c ∈ repl, pyWs c = false)
    (hsh : ∀ c, s.head? = some c → pyWs c = false) :
    ∀ c, (pyReplace pat repl s).head? = some c → pyWs c = false := by
  intro c hc
  cases s with
  | nil => rw [pyReplace_nil] at hc; cases hc
  | cons a rest =>
    rw [pyReplace_cons] at hc
    by_cases hg : pat ≠ [] ∧ pat.isPrefixOf (a :: rest)
    · rw [if_pos hg] at hc
      cases repl with
      | nil => exact absurd rfl hr
      | cons r0 rs =>
        have hh : (r0 :: rs ++ pyReplace pat (r0 :: rs) ((a :: rest).drop pat.length)).head? =
            some r0 := rfl
        rw [hh] at hc
        have : r0 = c := Option.some.inj hc
        exact this ▸ hrw r0 (List.mem_cons_self _ _)
    · rw [if_neg hg] at hc
      have : a = c := Option.some.inj hc
      exact this ▸ hsh a rfl

/-- Left-trimming commutes with `pyReplace` when neither the pattern nor the
replacement involves whitespace. -/
theorem trimLeft_pyReplace (pat repl : LChar) (hp : pat ≠ []) (hr : repl ≠ [])
    (hpw : ∀ c ∈ pat, pyWs c = false) (hrw : ∀ c ∈ repl, pyWs c = false) :
    ∀ s, trimLeft (pyReplace pat repl s) = pyReplace pat repl (trimLeft s) := by
  intro s
  induction s with
  | nil => simp [trimLeft, pyReplace_nil]
  | cons c rest ih =>
    by_cases hws : pyWs c = true
    · have hnm : ¬(pat ≠ [] ∧ pat.isPrefixOf (c :: rest)) := by
        rintro ⟨-, hpre⟩
        have : c ∈ pat := head_eq_of_isPrefixOf pat c rest hp hpre
        rw [hpw c this] at hws
        cases hws
      rw [pyReplace_cons, if_neg hnm,
        show trimLeft (c :: pyReplace pat repl rest) =
          List.dropWhile pyWs (c :: pyReplace pat repl rest) from rfl,
        List.dropWhile_cons, if_pos hws,
        show trimLeft (c :: rest) = List.dropWhile pyWs (c :: rest) from rfl,
        List.dropWhile_cons, if_pos hws]
      exact ih
    · have h1 : trimLeft (c :: rest) = c :: rest := by
        rw [show trimLeft (c :: rest) = List.dropWhile pyWs (c :: rest) from rfl,
          List.dropWhile_cons, if_neg hws]
      rw [h1]
      exact trimLeft_eq_self _ (pyReplace_head_not_ws pat repl (c :: rest) hr hrw
        (fun x hx => by
          have : c = x := Option.some.inj hx
          subst this
          exact Bool.eq_false_iff.mpr hws))

/-- Model of `pyReplace` keeps a whitespace-free last character whitespace-free
(non-empty pattern and non-empty whitespace-free replacement), and never
empties a non-empty string. -/
theorem pyReplace_getLast_not_ws (pat repl : LChar) (hp : pat ≠ []) (hr : repl ≠ [])
    (hrw : ∀ c ∈ repl, pyWs c = false) :
    ∀ (n : ℕ) (s : LChar), s.length ≤ n → s ≠ [] →
      (∀ c, s.getLast? = some c → pyWs c = false) →
      pyReplace pat repl s ≠ [] ∧
        ∀ c, (pyReplace pat repl s).getLast? = some c → pyWs c = false := by
  intro n
  induction n with
  | zero =>
    intro s hlen hne _
    exact absurd (List.length_eq_zero.mp (Nat.le_zero.mp hlen)) hne
  | succ n ih =>
    intro s hlen hne hlast
    cases s with
    | nil => exact absurd rfl hne
    | cons c rest =>
      rw [pyReplace_cons]
      by_cases hg : pat ≠ [] ∧ pat.isPrefixOf (c :: rest)
      · rw [if_pos hg]
        set d := (c :: rest).drop pat.length with hd
        by_cases hdn : d = []
        · rw [hdn, pyReplace_nil, List.append_nil]
          refine ⟨hr, fun x hx => hrw x (mem_of_getLast?_some hx)⟩
        · have hdlast : ∀ x, d.getLast? = some x → pyWs x = false := by
            intro x hx
            apply hlast
            have hsplit : (c :: rest).take pat.length ++ d = c :: rest :=
              List.take_append_drop pat.length (c :: rest)
            rw [← hsplit, List.getLast?_append, hx]
            rfl
          have hdlen : d.length ≤ n := by
            have h2 : 0 < pat.length := List.length_pos.mpr hp
            have h3 : d.length = (c :: rest).length - pat.length := List.length_drop _ _
            simp only [List.length_cons] at hlen h3
            omega
          obtain ⟨hne', hlast'⟩ := ih d hdlen hdn hdlast
          constructor
          · intro hx
            exact hne' (List.append_eq_nil.mp hx).2
          · intro x hx
            rw [List.getLast?_append] at hx
            obtain ⟨y, hy⟩ := getLast?_some_of_ne_nil _ hne'
            rw [hy] at hx
            have : y = x := Option.some.inj hx
            exact this ▸ hlast' y hy
      · rw [if_neg hg]
        by_cases hrn : rest = []
        · subst hrn
          rw [pyReplace_nil]
          exact ⟨by simp, fun x hx => by
            rw [List.getLast?_singleton] at hx
            have : c = x := Option.some.inj hx
            exact this ▸ hlast c (by rw [List.getLast?_singleton])⟩
        · have hrl : ∀ x, rest.getLast? = some x → pyWs x = false := by
            intro x hx
            apply hlast
            rw [getLast?_cons_of_ne_nil c rest hrn]
            exact hx
          have : rest.length ≤ n := by
            simp only [List.length_cons] at hlen
            omega
          obtain ⟨hne', hlast'⟩ := ih rest this hrn hrl
          refine ⟨by simp, fun x hx => ?_⟩
          rw [getLast?_cons_of_ne_nil c _ hne'] at hx
          exact hlast' x hx

/-- Right-trimming commutes with `pyReplace` when neither the pattern nor the
replacement involves whitespace. -/
theorem trimRight_pyReplace (pat repl : LChar) (hp : pat ≠ []) (hr : repl ≠ [])
    (hpw : ∀ c ∈ pat, pyWs c = false) (hrw : ∀ c ∈ repl, pyWs c = false) :
    ∀ s, trimRight (pyReplace pat repl s) = pyReplace pat repl (trimRight s) := by
  intro s
  obtain ⟨w, hsw, hww⟩ := trimRight_decomp s
  by_cases ht : trimRight s = []
  · rw [ht, List.nil_append] at hsw
    have hfix : pyReplace pat repl s = s := by
      refine pyReplace_eq_self_of_disjoint pat repl s hp ?_
      intro c hc hmem
      rw [hsw] at hc
      have h1 := hww c hc
      have h2 := hpw c hmem
      rw [h2] at h1
      cases h1
    rw [hfix, ht, pyReplace_nil]
  · have hlast := trimRight_getLast s
    have hsplit : pyReplace pat repl s =
        pyReplace pat repl (trimRight s) ++ w := by
      conv_lhs => rw [hsw]
      refine pyReplace_append_frozen pat repl hp (trimRight s) w ?_ ?_
      · intro c hc hmem
        have hcw : c ∈ w := by
          cases w with
          | nil => cases hc
          | cons w0 ws =>
            have : w0 = c := Option.some.inj hc
            exact this ▸ List.mem_cons_self _ _
        have h1 := hww c hcw
        have h2 := hpw c hmem
        rw [h2] at h1
        cases h1
      · refine pyReplace_eq_self_of_disjoint pat repl w hp ?_
        intro c hc hmem
        have h1 := hww c hc
        have h2 := hpw c hmem
        rw [h2] at h1
        cases h1
    rw [hsplit]
    obtain ⟨hne', hlast'⟩ := pyReplace_getLast_not_ws pat repl hp hr hrw
      (trimRight s).length (trimRight s) le_rfl ht hlast
    exact trimRight_append_ws _ w hww hlast'

/-- Model of `str.strip` commutes with the sentinel replacement (Lemma B). -/
theorem pyStrip_pyReplace (pat repl : LChar) (hp : pat ≠ []) (hr : repl ≠ [])
    (hpw : ∀ c ∈ pat, pyWs c = false) (hrw : ∀ c ∈ repl, pyWs c = false) (s : LChar) :
    pyStrip (pyReplace pat repl s) = pyReplace pat repl (pyStrip s) := by
  unfold pyStrip
  rw [trimRight_pyReplace pat repl hp hr hpw hrw s,
    trimLeft_pyReplace pat repl hp hr hpw hrw (trimRight s)]

/-! ## Lemmas about `pySplit` and its interaction with `pyReplace` -/

theorem pySplitA_nil (sep : Char) : pySplitA sep [] = ([], []) := rfl

theorem pySplitA_cons (sep : Char) (c : Char) (rest : LChar) :
    pySplitA sep (c :: rest) =
      if c = sep then ([], (pySplitA sep rest).1 :: (pySplitA sep rest).2)
      else (c :: (pySplitA sep rest).1, (pySplitA sep rest).2) := by
  rw [pySplitA]

/-- The first segment of a split is a prefix of the string. -/
theorem pySplitA_fst_prefix (sep : Char) : ∀ s : LChar, (pySplitA sep s).1 <+: s := by
  intro s
  induction s with
  | nil => exact List.nil_prefix
  | cons c rest ih =>
    rw [pySplitA_cons]
    by_cases hc : c = sep
    · rw [if_pos hc]; exact List.nil_prefix
    · rw [if_neg hc]
      exact List.cons_prefix_cons.mpr ⟨rfl, ih⟩

/-- Splitting after prepending separator-free text extends the first segment. -/
theorem pySplitA_append_left (sep : Char) (a x : LChar) (ha : ∀ c ∈ a, c ≠ sep) :
    pySplitA sep (a ++ x) = (a ++ (pySplitA sep x).1, (pySplitA sep x).2) := by
  induction a with
  | nil => rfl
  | cons c as ih =>
    rw [show (c :: as) ++ x = c :: (as ++ x) from rfl, pySplitA_cons,
      if_neg (ha c (List.mem_cons_self _ _)),
      ih (fun c hc => ha c (List.mem_cons_of_mem _ hc))]
    rfl

/-- Core of Lemma A: `pySplitA` maps through `pyReplace` segmentwise, provided
neither pattern nor replacement contains the separator. -/
theorem pySplitA_pyReplace (sep : Char) (pat repl : LChar) (hp : pat ≠ [])
    (hps : ∀ c ∈ pat, c ≠ sep) (hrs : ∀ c ∈ repl, c ≠ sep) :
    ∀ (n : ℕ) (s : LChar), s.length ≤ n →
      pySplitA sep (pyReplace pat repl s) =
        (pyReplace pat repl (pySplitA sep s).1,
          (pySplitA sep s).2.map (pyReplace pat repl)) := by
  intro n
  induction n with
  | zero =>
    intro s hlen
    have : s = [] := List.length_eq_zero.mp (Nat.le_zero.mp hlen)
    subst this
    simp [pyReplace_nil, pySplitA_nil]
  | succ n ih =>
    intro s hlen
    cases s with
    | nil => simp [pyReplace_nil, pySplitA_nil]
    | cons c rest =>
      by_cases hm : pat.isPrefixOf (c :: rest)
      · -- a match at the head: s = pat ++ d
        obtain ⟨d, hd⟩ := List.isPrefixOf_iff_prefix.mp hm
        have hdrop : (c :: rest).drop pat.length = d := by
          rw [← hd]; exact List.drop_left pat d
        rw [pyReplace_cons, if_pos ⟨hp, hm⟩, hdrop]
        have hdlen : d.length ≤ n := by
          have h1 : 0 < pat.length := List.length_pos.mpr hp
          have h2 : pat.length + d.length = (c :: rest).length := by
            rw [← hd, List.length_append]
          simp only [List.length_cons] at hlen h2
          omega
        rw [pySplitA_append_left sep repl _ hrs, ih d hdlen]
        rw [← hd, pySplitA_append_left sep pat _ hps]
        -- reduce the replacement of `pat ++ (pySplitA sep d).1`
        have hmm : pat.isPrefixOf (pat ++ (pySplitA sep d).1) :=
          List.isPrefixOf_iff_prefix.mpr (List.prefix_append _ _)
        cases hpat : pat with
        | nil => exact absurd hpat hp
        | cons p0 ps =>
          rw [show (p0 :: ps) ++ (pySplitA sep d).1 =
            p0 :: (ps ++ (pySplitA sep d).1) from rfl, pyReplace_cons,
            if_pos ⟨by simp, by rw [← hpat]; rw [hpat] at hmm ⊢; exact hmm⟩]
          have : (p0 :: (ps ++ (pySplitA sep d).1)).drop (p0 :: ps).length =
              (pySplitA sep d).1 := by
            rw [show p0 :: (ps ++ (pySplitA sep d).1) =
              (p0 :: ps) ++ (pySplitA sep d).1 from rfl]
            exact List.drop_left _ _
          rw [← hpat] at this ⊢
          rw [this]
      · rw [pyReplace_cons, if_neg (fun hcon => hm hcon.2)]
        have hrlen : rest.length ≤ n := by
          simp only [List.length_cons] at hlen
          omega
        by_cases hc : c = sep
        · rw [pySplitA_cons, if_pos hc, pySplitA_cons, if_pos hc, ih rest hrlen]
          simp [pyReplace_nil]
        · rw [pySplitA_cons, if_neg hc, pySplitA_cons, if_neg hc, ih rest hrlen]
          have hnm : ¬ pat.isPrefixOf (c :: (pySplitA sep rest).1) := by
            intro hx
            apply hm
            rw [ List.isPrefixOf_iff_prefix] at hx ⊢
            exact hx.trans (List.cons_prefix_cons.mpr ⟨rfl, pySplitA_fst_prefix sep rest⟩)
          rw [show pyReplace pat repl (c :: (pySplitA sep rest).1) =
            c :: pyReplace pat repl (pySplitA sep rest).1 by
              rw [pyReplace_cons, if_neg (fun hcon => hnm hcon.2)]]

/-- Lemma A: `str.split` maps through `pyReplace` segmentwise. -/
theorem pySplit_pyReplace (sep : Char) (pat repl : LChar) (hp : pat ≠ [])
    (hps : ∀ c ∈ pat, c ≠ sep) (hrs : ∀ c ∈ repl, c ≠ sep) (s : LChar) :
    pySplit sep (pyReplace pat repl s) = (pySplit sep s).map (pyReplace pat repl) := by
  unfold pySplit
  rw [pySplitA_pyReplace sep pat repl hp hps hrs s.length s le_rfl]
  rfl

/-- The pipeline tokens are the raw sample tokens with the sentinel
substitution applied per token. -/
theorem pipelineTokens_eq_map (s : LChar) :
    pipelineTokens s = (sampleTokens s).map (pyReplace sentinel nanStr) := by
  unfold pipelineTokens sampleTokens
  rw [pyStrip_pyReplace sentinel nanStr (by decide) (by decide) (by decide) (by decide) s,
    pySplit_pyReplace ',' sentinel nanStr (by decide) (by decide) (by decide) (pyStrip s)]
  exact (List.map_drop (pyReplace sentinel nanStr) _ 1).symm

/-! ## Tokens accepted by `float` contain no two adjacent `F` characters, so
the sentinel replacement cannot touch them -/

theorem noFF_cons_iff (x : Char) (l : LChar) :
    noFF (x :: l) = true ↔
      (∀ c, l.head? = some c → ¬(x = 'F' ∧ c = 'F')) ∧ noFF l = true := by
  cases l with
  | nil => simp [noFF]
  | cons y ys =>
    show ((!(x == 'F' && y == 'F')) && noFF (y :: ys)) = true ↔ _
    constructor
    · intro h
      obtain ⟨h1, h2⟩ := Bool.and_eq_true_iff.mp h
      refine ⟨fun c hc hcon => ?_, h2⟩
      have : y = c := Option.some.inj hc
      subst this
      rw [hcon.1, hcon.2] at h1
      simp at h1
    · rintro ⟨h1, h2⟩
      refine Bool.and_eq_true_iff.mpr ⟨?_, h2⟩
      by_cases hx : x = 'F'
      · by_cases hy : y = 'F'
        · exact absurd ⟨hx, hy⟩ (h1 y rfl)
        · rw [hx]
          simp [hy]
      · simp [hx]

theorem noFF_of_not_memF (l : LChar) (h : 'F' ∉ l) : noFF l = true := by
  induction l with
  | nil => rfl
  | cons x xs ih =>
    rw [noFF_cons_iff]
    refine ⟨fun c hc hcon => h (hcon.1 ▸ List.mem_cons_self _ _), ?_⟩
    exact ih (fun hm => h (List.mem_cons_of_mem _ hm))

theorem noFF_of_all_ws (l : LChar) (h : ∀ c ∈ l, pyWs c = true) : noFF l = true := by
  refine noFF_of_not_memF l (fun hm => ?_)
  have := h 'F' hm
  cases this

theorem noFF_append (a b : LChar) (h1 : noFF a = true) (h2 : noFF b = true)
    (hbh : ∀ c, b.head? = some c → c ≠ 'F') : noFF (a ++ b) = true := by
  induction a with
  | nil => exact h2
  | cons x as ih =>
    rw [noFF_cons_iff] at h1
    rw [show (x :: as) ++ b = x :: (as ++ b) from rfl, noFF_cons_iff]
    refine ⟨?_, ih h1.2⟩
    intro c hc hcon
    cases as with
    | nil =>
      rw [List.nil_append] at hc
      exact hbh c hc hcon.2
    | cons a0 as' =>
      have : a0 = c := Option.some.inj hc
      subst this
      exact h1.1 a0 rfl hcon

/-- A string without adjacent `F F` is untouched by the sentinel replacement. -/
theorem pyReplace_sentinel_eq_self (repl : LChar) (s : LChar) (h : noFF s = true) :
    pyReplace sentinel repl s = s := by
  induction s with
  | nil => exact pyReplace_nil _ _
  | cons c rest ih =>
    rw [pyReplace_cons]
    have hnm : ¬(sentinel ≠ [] ∧ sentinel.isPrefixOf (c :: rest)) := by
      rintro ⟨-, hpre⟩
      have hpre' := List.isPrefixOf_iff_prefix.mp hpre
      have hsen : sentinel = 'F' :: 'F' :: ['F', 'F', 'F', 'F', 'F'] := by decide
      rw [hsen] at hpre'
      have h1 : c = 'F' ∧ ('F' :: ['F', 'F', 'F', 'F', 'F'] : LChar) <+: rest := by
        have := List.cons_prefix_cons.mp hpre'
        exact ⟨this.1.symm, this.2⟩
      cases rest with
      | nil =>
        have := h1.2
        rw [List.prefix_nil] at this
        cases this
      | cons r0 rest' =>
        have h2 : 'F' = r0 := (List.cons_prefix_cons.mp h1.2).1
        rw [noFF_cons_iff] at h
        exact h.1 r0 rfl ⟨h1.1, h2.symm⟩
    rw [if_neg hnm]
    rw [noFF_cons_iff] at h
    rw [ih h.2]

/-! ## Character content of `float`-accepted tokens -/

theorem parseExp_cons (m : ℚ) (e : Char) (rest : LChar) :
    parseExp m (e :: rest) =
      if e = 'e' ∨ e = 'E' then
        if (if rest.head? = some '+' ∨ rest.head? = some '-' then rest.tail else rest) ≠ [] ∧
            (if rest.head? = some '+' ∨ rest.head? = some '-' then rest.tail
              else rest).all isDig then
          some (m * (10 : ℚ) ^ (if rest.head? = some '-' then
            -(decVal (if rest.head? = some '+' ∨ rest.head? = some '-' then rest.tail
              else rest) : ℤ)
            else (decVal (if rest.head? = some '+' ∨ rest.head? = some '-' then rest.tail
              else rest) : ℤ)))
        else none
      else none := rfl

theorem parseExp_chars (m : ℚ) (s : LChar) (q : ℚ) (h : parseExp m s = some q) :
    ∀ c ∈ s, c = 'e' ∨ c = 'E' ∨ c = '+' ∨ c = '-' ∨ isDig c = true := by
  intro c hc
  cases s with
  | nil => cases hc
  | cons e rest =>
    rw [parseExp_cons] at h
    by_cases he : e = 'e' ∨ e = 'E'
    · rw [if_pos he] at h
      by_cases hguard :
          (if rest.head? = some '+' ∨ rest.head? = some '-' then rest.tail else rest) ≠ [] ∧
          (if rest.head? = some '+' ∨ rest.head? = some '-' then rest.tail else rest).all isDig
      · rcases List.mem_cons.mp hc with hce | hcr
        · subst hce
          rcases he with h | h
          · exact Or.inl h
          · exact Or.inr (Or.inl h)
        · by_cases hsign : rest.head? = some '+' ∨ rest.head? = some '-'
          · rw [if_pos hsign] at hguard
            obtain ⟨r0, rt, rfl⟩ : ∃ r0 rt, rest = r0 :: rt := by
              rcases hsign with hs | hs
              · obtain ⟨ys, hys⟩ := List.head?_eq_some_iff.mp hs
                exact ⟨'+', ys, hys⟩
              · obtain ⟨ys, hys⟩ := List.head?_eq_some_iff.mp hs
                exact ⟨'-', ys, hys⟩
            rcases List.mem_cons.mp hcr with hc0 | hct
            · subst hc0
              rcases hsign with hs | hs
              · have : c = '+' := Option.some.inj hs.symm ▸ (Option.some.inj hs).symm ▸ rfl
                exact Or.inr (Or.inr (Or.inl (Option.some.inj hs)))
              · exact Or.inr (Or.inr (Or.inr (Or.inl (Option.some.inj hs))))
            · have := List.all_eq_true.mp hguard.2 c hct
              exact Or.inr (Or.inr (Or.inr (Or.inr this)))
          · rw [if_neg hsign] at hguard
            have := List.all_eq_true.mp hguard.2 c hcr
            exact Or.inr (Or.inr (Or.inr (Or.inr this)))
      · rw [if_neg hguard] at h
        cases h
    · rw [if_neg he] at h
      cases h

theorem parseDecimal_chars (s : LChar) (q : ℚ) (h : parseDecimal s = some q) :
    ∀ c ∈ s, isDig c = true ∨ c = '.' ∨ c = 'e' ∨ c = 'E' ∨ c = '+' ∨ c = '-' := by
  intro c hc
  unfold parseDecimal at h
  simp only at h
  rw [← List.takeWhile_append_dropWhile isDig s] at hc
  rcases List.mem_append.mp hc with htw | hdw
  · exact Or.inl (List.mem_takeWhile_imp htw)
  · by_cases hdot : (s.dropWhile isDig).head? = some '.'
    · rw [if_pos hdot] at h
      obtain ⟨dr, hdr⟩ := List.head?_eq_some_iff.mp hdot
      rw [hdr] at h hdw
      simp only [List.tail_cons] at h
      by_cases hempty :
          (s.takeWhile isDig).isEmpty = true ∧ (dr.takeWhile isDig).isEmpty = true
      · rw [if_pos hempty] at h; cases h
      · rw [if_neg hempty] at h
        rcases List.mem_cons.mp hdw with hc0 | hcr
        · exact Or.inr (Or.inl hc0)
        · rw [← List.takeWhile_append_dropWhile isDig dr] at hcr
          rcases List.mem_append.mp hcr with htw2 | hdw2
          · exact Or.inl (List.mem_takeWhile_imp htw2)
          · rcases parseExp_chars _ _ _ h c hdw2 with h | h | h | h | h <;> tauto
    · rw [if_neg hdot] at h
      by_cases hip : (s.takeWhile isDig).isEmpty = true
      · rw [if_pos hip] at h; cases h
      · rw [if_neg hip] at h
        rcases parseExp_chars _ _ _ h c hdw with h | h | h | h | h <;> tauto

theorem parseDecimal_no_F (s : LChar) (q : ℚ) (h : parseDecimal s = some q) :
    'F' ∉ s := by
  intro hm
  rcases parseDecimal_chars s q h 'F' hm with hd | hd | hd | hd | hd | hd
  · cases hd
  all_goals cases hd

theorem pyFloatBody_eq (neg : Bool) (s : LChar) :
    pyFloatBody neg s =
      if s.map Char.toLower = ['n', 'a', 'n'] then some PyFloat.nan
      else if s.map Char.toLower = ['i', 'n', 'f'] ∨
          s.map Char.toLower = ['i', 'n', 'f', 'i', 'n', 'i', 't', 'y'] then
        some (if neg then PyFloat.ninf else PyFloat.inf)
      else (parseDecimal s).map (fun q => PyFloat.num (if neg then -q else q)) := rfl

/-- A token body accepted by `float` has no adjacent `F F` and does not start
with `F`. -/
theorem pyFloatBody_noFF (neg : Bool) (s : LChar) (v : PyFloat)
    (h : pyFloatBody neg s = some v) :
    noFF s = true ∧ ∀ c, s.head? = some c → c ≠ 'F' := by
  rw [pyFloatBody_eq] at h
  by_cases h1 : s.map Char.toLower = ['n', 'a', 'n']
  · obtain ⟨a, b, c, rfl⟩ : ∃ a b c, s = [a, b, c] := by
      cases s with
      | nil => simp at h1
      | cons a t =>
        cases t with
        | nil => simp at h1
        | cons b t2 =>
          cases t2 with
          | nil => simp at h1
          | cons c t3 =>
            cases t3 with
            | nil => exact ⟨a, b, c, rfl⟩
            | cons d t4 => simp at h1
    simp only [List.map_cons, List.map_nil, List.cons.injEq, and_true] at h1
    obtain ⟨ha, hb, hc⟩ := h1
    have hbF : (b == 'F') = false := by
      refine beq_eq_false_iff_ne.mpr (fun hx => ?_)
      rw [hx] at hb
      exact absurd hb (by decide)
    refine ⟨by simp [noFF, hbF], fun x hx hxF => ?_⟩
    have : a = x := Option.some.inj hx
    subst this
    rw [hxF] at ha
    exact absurd ha (by decide)
  · rw [if_neg h1] at h
    by_cases h2 : s.map Char.toLower = ['i', 'n', 'f'] ∨
        s.map Char.toLower = ['i', 'n', 'f', 'i', 'n', 'i', 't', 'y']
    · rcases h2 with h2 | h2
      · obtain ⟨a, b, c, rfl⟩ : ∃ a b c, s = [a, b, c] := by
          cases s with
          | nil => simp at h2
          | cons a t =>
            cases t with
            | nil => simp at h2
            | cons b t2 =>
              cases t2 with
              | nil => simp at h2
              | cons c t3 =>
                cases t3 with
                | nil => exact ⟨a, b, c, rfl⟩
                | cons d t4 => simp at h2
        simp only [List.map_cons, List.map_nil, List.cons.injEq, and_true] at h2
        obtain ⟨ha, hb, hc⟩ := h2
        have hbF : (b == 'F') = false := by
          refine beq_eq_false_iff_ne.mpr (fun hx => ?_)
          rw [hx] at hb
          exact absurd hb (by decide)
        refine ⟨by simp [noFF, hbF], fun x hx hxF => ?_⟩
        have : a = x := Option.some.inj hx
        subst this
        rw [hxF] at ha
        exact absurd ha (by decide)
      · obtain ⟨c0, c1, c2, c3, c4, c5, c6, c7, rfl⟩ :
            ∃ c0 c1 c2 c3 c4 c5 c6 c7, s = [c0, c1, c2, c3, c4, c5, c6, c7] := by
          cases s with
          | nil => simp at h2
          | cons c0 t0 => cases t0 with
            | nil => simp at h2
            | cons c1 t1 => cases t1 with
              | nil => simp at h2
              | cons c2 t2 => cases t2 with
                | nil => simp at h2
                | cons c3 t3 => cases t3 with
                  | nil => simp at h2
                  | cons c4 t4 => cases t4 with
                    | nil => simp at h2
                    | cons c5 t5 => cases t5 with
                      | nil => simp at h2
                      | cons c6 t6 => cases t6 with
                        | nil => simp at h2
                        | cons c7 t7 => cases t7 with
                          | nil => exact ⟨c0, c1, c2, c3, c4, c5, c6, c7, rfl⟩
                          | cons c8 t8 => simp at h2
        simp only [List.map_cons, List.map_nil, List.cons.injEq, and_true] at h2
        obtain ⟨h0, hr1, hr2, hr3, hr4, hr5, hr6, hr7⟩ := h2
        have ne_of_lower : ∀ (x : Char) (y : Char), Char.toLower x = y → y ≠ 'f' →
            (x == 'F') = false := by
          intro x y hxy hy
          refine beq_eq_false_iff_ne.mpr (fun hx => ?_)
          rw [hx] at hxy
          rw [show Char.toLower 'F' = 'f' from by decide] at hxy
          exact hy hxy.symm
        have h1F := ne_of_lower c1 'n' hr1 (by decide)
        have h3F := ne_of_lower c3 'i' hr3 (by decide)
        have h4F := ne_of_lower c4 'n' hr4 (by decide)
        have h5F := ne_of_lower c5 'i' hr5 (by decide)
        have h6F := ne_of_lower c6 't' hr6 (by decide)
        refine ⟨by simp [noFF, h1F, h3F, h4F, h5F, h6F], fun x hx hxF => ?_⟩
        have : c0 = x := Option.some.inj hx
        subst this
        rw [hxF] at h0
        exact absurd h0 (by decide)
    · rw [if_neg h2] at h
      obtain ⟨q, hq, -⟩ := Option.map_eq_some'.mp h
      have hnoF : 'F' ∉ s := parseDecimal_no_F s q hq
      refine ⟨noFF_of_not_memF s hnoF, fun x hx hxF => ?_⟩
      obtain ⟨ys, rfl⟩ := List.head?_eq_some_iff.mp hx
      exact hnoF (hxF ▸ List.mem_cons_self _ _)

/-- Both-sided strip decomposition. -/
theorem pyStrip_decomp (s : LChar) :
    ∃ w1 w2, s = w1 ++ pyStrip s ++ w2 ∧
      (∀ c ∈ w1, pyWs c = true) ∧ ∀ c ∈ w2, pyWs c = true := by
  obtain ⟨w2, hs2, hw2⟩ := trimRight_decomp s
  obtain ⟨w1, hs1, hw1⟩ := trimLeft_decomp (trimRight s)
  refine ⟨w1, w2, ?_, hw1, hw2⟩
  conv_lhs => rw [hs2]
  rw [show (pyStrip s : LChar) = trimLeft (trimRight s) from rfl, ← hs1]

/-- A whole token accepted by `float` has no adjacent `F F`. -/
theorem pyFloat_noFF (t : LChar) (v : PyFloat) (h : pyFloat? t = some v) :
    noFF t = true := by
  -- body facts for the stripped token, sign included
  have hstrip : noFF (pyStrip t) = true ∧
      ∀ c, (pyStrip t).head? = some c → c ≠ 'F' := by
    unfold pyFloat? at h
    simp only at h
    by_cases hplus : (pyStrip t).head? = some '+'
    · rw [if_pos hplus] at h
      obtain ⟨ys, hys⟩ := List.head?_eq_some_iff.mp hplus
      obtain ⟨hn, hh⟩ := pyFloatBody_noFF false (pyStrip t).tail v h
      rw [hys]
      rw [hys] at hn hh
      simp only [List.tail_cons] at hn hh
      constructor
      · rw [noFF_cons_iff]
        exact ⟨fun c hc hcon => absurd hcon.1 (by decide), hn⟩
      · intro c hc hcF
        have : '+' = c := Option.some.inj hc
        rw [← this] at hcF
        cases hcF
    · rw [if_neg hplus] at h
      by_cases hminus : (pyStrip t).head? = some '-'
      · rw [if_pos hminus] at h
        obtain ⟨ys, hys⟩ := List.head?_eq_some_iff.mp hminus
        obtain ⟨hn, hh⟩ := pyFloatBody_noFF true (pyStrip t).tail v h
        rw [hys]
        rw [hys] at hn hh
        simp only [List.tail_cons] at hn hh
        constructor
        · rw [noFF_cons_iff]
          exact ⟨fun c hc hcon => absurd hcon.1 (by decide), hn⟩
        · intro c hc hcF
          have : '-' = c := Option.some.inj hc
          rw [← this] at hcF
          cases hcF
      · rw [if_neg hminus] at h
        exact pyFloatBody_noFF false (pyStrip t) v h
  obtain ⟨w1, w2, hdecomp, hw1, hw2⟩ := pyStrip_decomp t
  have hmid : noFF (pyStrip t ++ w2) = true := by
    refine noFF_append _ _ hstrip.1 (noFF_of_all_ws w2 hw2) ?_
    intro c hc hcF
    cases w2 with
    | nil => cases hc
    | cons x xs =>
      have : x = c := Option.some.inj hc
      subst this
      have := hw2 x (List.mem_cons_self _ _)
      rw [hcF] at this
      cases this
  have hfull : noFF (w1 ++ (pyStrip t ++ w2)) = true := by
    refine noFF_append _ _ (noFF_of_all_ws w1 hw1) hmid ?_
    intro c hc hcF
    rw [List.head?_append] at hc
    cases hh : (pyStrip t).head? with
    | some x =>
      rw [hh] at hc
      have : x = c := Option.some.inj hc
      subst this
      exact hstrip.2 x hh hcF
    | none =>
      rw [hh] at hc
      simp only [Option.none_or] at hc
      cases w2 with
      | nil => cases hc
      | cons x xs =>
        have : x = c := Option.some.inj hc
        subst this
        have := hw2 x (List.mem_cons_self _ _)
        rw [hcF] at this
        cases this
  rw [hdecomp, List.append_assoc]
  exact hfull

/-- The sentinel replacement leaves every `float`-accepted token unchanged. -/
theorem pyReplace_eq_self_of_pyFloat (t : LChar) (v : PyFloat)
    (h : pyFloat? t = some v) :
    pyReplace sentinel nanStr t = t :=
  pyReplace_sentinel_eq_self nanStr t (pyFloat_noFF t v h)

/-! ## Lemmas about `floatList` -/

theorem floatList_eq_map (g : LChar → PyFloat) :
    ∀ l : List LChar, (∀ t ∈ l, pyFloat? t = some (g t)) →
      floatList l = some (l.map g) := by
  intro l
  induction l with
  | nil => intro _; rfl
  | cons t ts ih =>
    intro h
    unfold floatList
    rw [h t (List.mem_cons_self _ _), ih (fun x hx => h x (List.mem_cons_of_mem _ hx))]
    rfl

theorem floatList_eq_none (l : List LChar) (t : LChar) (ht : t ∈ l)
    (h : pyFloat? t = none) : floatList l = none := by
  induction l with
  | nil => cases ht
  | cons x xs ih =>
    unfold floatList
    rcases List.mem_cons.mp ht with h1 | h1
    · subst h1
      rw [h]
    · cases hx : pyFloat? x with
      | none => rfl
      | some v => rw [ih h1]; rfl

/-! ## A trailing delimiter survives the pipeline -/

theorem pyReplace_trailing_comma (s : LChar) (h : s.getLast? = some ',') :
    (pyReplace sentinel nanStr s).getLast? = some ',' := by
  obtain ⟨t, rfl⟩ := List.getLast?_eq_some_iff.mp h
  rw [pyReplace_append_frozen sentinel nanStr (by decide) t [','] (by
      intro c hc hmem
      have : ',' = c := Option.some.inj hc
      subst this
      revert hmem
      decide)
    (pyReplace_eq_self_of_disjoint sentinel nanStr [','] (by decide) (by
      intro c hc hmem
      have : c = ',' := List.mem_singleton.mp hc
      subst this
      revert hmem
      decide))]
  exact List.getLast?_concat _

theorem pyStrip_trailing_comma (u : LChar) (h : u.getLast? = some ',') :
    (pyStrip u).getLast? = some ',' := by
  have htr : trimRight u = u := trimRight_eq_self u (by
    intro c hc
    have : ',' = c := Option.some.inj (h ▸ hc.symm ▸ rfl)
    rw [h] at hc
    have : c = ',' := Option.some.inj hc.symm
    subst this
    rfl)
  rw [show (pyStrip u : LChar) = trimLeft (trimRight u) from rfl, htr]
  obtain ⟨w, hw, hww⟩ := trimLeft_decomp u
  have hne : trimLeft u ≠ [] := by
    intro hx
    rw [hx, List.append_nil] at hw
    obtain ⟨t, ht⟩ := List.getLast?_eq_some_iff.mp h
    have : ',' ∈ u := ht ▸ List.mem_append_right t (List.mem_cons_self _ _)
    rw [hw] at this
    have := hww ',' this
    cases this
  have h' : (w ++ trimLeft u).getLast? = some ',' := by rw [← hw]; exact h
  rw [List.getLast?_append] at h'
  obtain ⟨x, hx⟩ := getLast?_some_of_ne_nil _ hne
  rw [hx] at h' ⊢
  exact h'

theorem pySplitA_trailing_comma (sep : Char) :
    ∀ u : LChar, u.getLast? = some sep →
      (pySplitA sep u).2 ≠ [] ∧ ((pySplitA sep u).2).getLast? = some [] := by
  intro u
  induction u with
  | nil => intro h; cases h
  | cons c rest ih =>
    intro h
    by_cases hrne : rest = []
    · subst hrne
      rw [List.getLast?_singleton] at h
      have : c = sep := Option.some.inj h
      subst this
      rw [pySplitA_cons, if_pos rfl]
      exact ⟨by simp, by simp [pySplitA_nil]⟩
    · rw [getLast?_cons_of_ne_nil c rest hrne] at h
      obtain ⟨h1, h2⟩ := ih h
      rw [pySplitA_cons]
      by_cases hc : c = sep
      · rw [if_pos hc]
        refine ⟨by simp, ?_⟩
        rw [getLast?_cons_of_ne_nil _ _ h1]
        exact h2
      · rw [if_neg hc]
        exact ⟨h1, h2⟩

/-- A frame ending in the delimiter yields an empty pipeline token. -/
theorem nil_mem_pipelineTokens_of_trailing_comma (s : LChar)
    (h : s.getLast? = some ',') : [] ∈ pipelineTokens s := by
  unfold pipelineTokens
  have h1 := pyReplace_trailing_comma s h
  have h2 := pyStrip_trailing_comma _ h1
  obtain ⟨hne, hlast⟩ :=
    pySplitA_trailing_comma ',' (pyStrip (pyReplace sentinel nanStr s)) h2
  unfold pySplit
  rw [List.drop_one, List.tail_cons]
  exact mem_of_getLast?_some hlast

theorem floatList_map (f : LChar → LChar) (g : LChar → PyFloat) :
    ∀ l : List LChar, (∀ t ∈ l, pyFloat? (f t) = some (g t)) →
      floatList (l.map f) = some (l.map g) := by
  intro l
  induction l with
  | nil => intro _; rfl
  | cons t ts ih =>
    intro h
    rw [List.map_cons]
    unfold floatList
    rw [h t (List.mem_cons_self _ _), ih (fun x hx => h x (List.mem_cons_of_mem _ hx))]
    rfl

/-! ## The claims -/

/-- C1: the claim says two same-date `resolve` calls with different tags give
`rootPath/t1/YYYY/MM/DD` and `rootPath/t2/YYYY/MM/DD` with no accumulation of
prior tag segments.  The code prepends the tag to the *cached* relative path,
which on an unchanged date still holds the previous tag, so the second call
returns `root/experiment/test/2026/10/12` instead of
`root/experiment/2026/10/12`: evaluation of the source at the failing input. -/
theorem C1_tag_accumulation :
    (((FileManager.mkAt "/data/data".data).filepath ⟨2026, 10, 12⟩
        "test".data).1.filepath ⟨2026, 10, 12⟩ "experiment".data).2 =
      "/data/data/experiment/test/2026/10/12".data ∧
    "/data/data/experiment/test/2026/10/12".data ≠
      "/data/data/experiment/2026/10/12".data := by
  with_unfolding_all decide

/-- C2: the claim says `selectProgram(-1)` signals a `ConfigurationError` and
leaves the state unchanged.  The code only checks the upper bound, so
`change_program (-1)` raises nothing and stores the out-of-range index `-1`
(the derived fields are rewritten from the last catalog entry via Python's
negative indexing); `change_program(catalogSize)` behaves as claimed. -/
theorem C2_negative_index_accepted :
    LaserMetaData.change_program (-1) metaInit =
      ({ metaInit with CurrentProgram := -1 }, none) ∧
    LaserMetaData.change_program 1 metaInit = (metaInit, some PyErr.valueError) := by
  with_unfolding_all decide

/-- C9: `filepath` normalises the tag by `strip().lower()` before the lookup
and silently maps every unrecognised tag to `"test"`: from equal states on
the same date, `"Experiment "` and `"experiment"` give identical results,
and any tag whose normalisation is not in the table gives the same result
as `"test"`. -/
theorem C9_tag_normalisation :
    ∀ (fm : FileManager) (d : DateT),
      fm.filepath d "Experiment ".data = fm.filepath d "experiment".data ∧
      fm.filepath d "bogus-tag".data = fm.filepath d "test".data ∧
      ∀ t : LChar, tagLookup (normTag t) = none →
        fm.filepath d t = fm.filepath d "test".data := by
  intro fm d
  refine ⟨?_, ?_, ?_⟩
  · unfold FileManager.filepath
    rw [show normTag "Experiment ".data = normTag "experiment".data from by decide]
  · unfold FileManager.filepath filepathAux
    rw [show (tagLookup (normTag "bogus-tag".data)).getD "test".data =
      (tagLookup (normTag "test".data)).getD "test".data from by decide]
  · intro t ht
    unfold FileManager.filepath filepathAux
    rw [show (tagLookup (normTag t)).getD "test".data = "test".data from by
        rw [ht]; rfl,
      show (tagLookup (normTag "test".data)).getD "test".data = "test".data from by decide]

/-- Witness for C9 at a concrete state, date and unrecognised tag. -/
theorem C9_witness :
    tagLookup (normTag "bogus2".data) = none ∧
    (FileManager.mkAt "/r".data).filepath ⟨2026, 10, 12⟩ "bogus2".data =
      (FileManager.mkAt "/r".data).filepath ⟨2026, 10, 12⟩ "test".data :=
  ⟨by decide, (C9_tag_normalisation (FileManager.mkAt "/r".data)
    ⟨2026, 10, 12⟩).2.2 "bogus2".data (by decide)⟩

/-- C10: a raw frame ending in the delimiter (so its final token is empty)
is rejected whole — `float("")` raises — with a `ParseWarning` carrying the
first/last 10 characters, and the state (buffer and both timestamps) is
returned unchanged. -/
theorem C10_trailing_delimiter :
    ∀ (d : LaserData) (s : LChar) (now : ℚ),
      s.getLast? = some ',' →
      d.parse_insert s now =
        Except.ok (d, some (Warn.invalidStr (s.take 10) (takeRight s 10))) := by
  intro d s now h
  unfold LaserData.parse_insert
  rw [floatList_eq_none (pipelineTokens s) []
    (nil_mem_pipelineTokens_of_trailing_comma s h) (by decide)]

/-- Witness for C10: `ingest("meta,1.0,")` from a fresh dataset. -/
theorem C10_witness :
    ("meta,1.0,".data : LChar).getLast? = some ',' ∧
    (LaserData.mkAt 0).parse_insert "meta,1.0,".data 5 =
      Except.ok (LaserData.mkAt 0, some (Warn.invalidStr
        ("meta,1.0,".data.take 10) (takeRight "meta,1.0,".data 10))) :=
  ⟨by decide, C10_trailing_delimiter (LaserData.mkAt 0) "meta,1.0,".data 5 (by decide)⟩

/-- All sampling rates in the table are positive. -/
theorem SamplingRates_pos (c : ℤ) (r : ℚ) (h : SamplingRates c = some r) : 0 < r := by
  unfold SamplingRates at h
  split_ifs at h <;>
    (injection h with h1; rw [← h1]; norm_num)

/-- C3: for a state whose `SamplingCycle` suffix parses to a code present in
the table, `dt` is the table entry converted to seconds and is strictly
positive, `Frequency` is `1/dt` truncated, `StorageSize` is the second-to-last
comma token of `DataStorage` parsed as an integer, and `WaitingTime` is
`dt * StorageSize` truncated; for an absent code `dt` raises (`KeyError`). -/
theorem C3_derived_scalars :
    ∀ (m : LaserMetaData) (c : ℤ),
      pyInt? ((pySplit ',' m.SamplingCycle).getLastD []) = some c →
      ((∀ r, SamplingRates c = some r →
          m.dt = Except.ok (r / 1000000) ∧ 0 < r / 1000000 ∧
          m.Frequency = Except.ok (pyTrunc (1 / (r / 1000000))) ∧
          ∀ (tok : LChar) (n : ℤ), pyIndex (pySplit ',' m.DataStorage) (-2) = some tok →
            pyInt? tok = some n →
            m.StorageSize = Except.ok n ∧
            m.WaitingTime = Except.ok (pyTrunc ((r / 1000000) * (n : ℚ)))) ∧
        (SamplingRates c = none → m.dt = Except.error (PyErr.keyError c))) := by
  intro m c hc
  have hdt : ∀ r, SamplingRates c = some r → m.dt = Except.ok (r / 1000000) := by
    intro r hr
    unfold LaserMetaData.dt
    rw [hc]
    show (match SamplingRates c with
      | none => Except.error (PyErr.keyError c)
      | some r => Except.ok (r / 1000000)) = Except.ok (r / 1000000)
    rw [hr]
  constructor
  · intro r hr
    have hpos : 0 < r / 1000000 := by
      have := SamplingRates_pos c r hr
      positivity
    refine ⟨hdt r hr, hpos, ?_, ?_⟩
    · unfold LaserMetaData.Frequency
      rw [hdt r hr]
      rfl
    · intro tok n htok hn
      have hst : m.StorageSize = Except.ok n := by
        unfold LaserMetaData.StorageSize
        rw [htok]
        show (match pyInt? tok with
          | none => Except.error PyErr.valueError
          | some n => Except.ok n) = Except.ok n
        rw [hn]
      refine ⟨hst, ?_⟩
      unfold LaserMetaData.WaitingTime
      rw [hdt r hr, hst]
      rfl
  · intro hr
    unfold LaserMetaData.dt
    rw [hc]
    show (match SamplingRates c with
      | none => Except.error (PyErr.keyError c)
      | some r => Except.ok (r / 1000000)) = Except.error (PyErr.keyError c)
    rw [hr]

/-- Witness for C3 at the actual program (code 8, 1000 µs → 1 ms;
storage 60000; frequency 1000 Hz; waiting time 60 s). -/
theorem C3_witness :
    pyInt? ((pySplit ',' metaInit.SamplingCycle).getLastD []) = some 8 ∧
    SamplingRates 8 = some 1000 ∧
    pyIndex (pySplit ',' metaInit.DataStorage) (-2) = some "0060000".data ∧
    pyInt? "0060000".data = some 60000 ∧
    metaInit.dt = Except.ok (1000 / 1000000) ∧ (0 : ℚ) < 1000 / 1000000 ∧
    metaInit.Frequency = Except.ok (pyTrunc (1 / ((1000 : ℚ) / 1000000))) ∧
    metaInit.StorageSize = Except.ok 60000 ∧
    metaInit.WaitingTime = Except.ok (pyTrunc (((1000 : ℚ) / 1000000) * (60000 : ℚ))) := by
  have h := C3_derived_scalars metaInit 8 (by decide)
  have h1 := h.1 1000 (by decide)
  have h2 := h1.2.2.2 "0060000".data 60000 (by decide) (by decide)
  exact ⟨by decide, by decide, by decide, by decide,
    h1.1, h1.2.1, h1.2.2.1, h2.1, h2.2⟩

/-- C4: each `insert` appends the samples in order, raises nothing, stamps
`EndTime := now` and restores `StartTime = EndTime - len(Data)·dt`; in
particular `insert [a,b,c]` then `insert [e]` from a fresh dataset yields
buffer `[a,b,c,e]` with `StartTime = EndTime - 4·dt` (dt = 1/1000 s), and
`insert []` on an empty dataset leaves `StartTime = EndTime`. -/
theorem C4_insert_invariant :
    ∀ (d : LaserData) (samples : List PyFloat) (now δ : ℚ),
      d.MetaData.dt = Except.ok δ →
      ((d.insert samples now).1.Data = d.Data ++ samples ∧
        (d.insert samples now).2 = none ∧
        (d.insert samples now).1.EndTime = now ∧
        (d.insert samples now).1.StartTime =
          (d.insert samples now).1.EndTime -
            ((d.insert samples now).1.Data.length : ℚ) * δ) ∧
      (∀ (a b c e : PyFloat) (now₀ now₁ now₂ : ℚ),
        (((LaserData.mkAt now₀).insert [a, b, c] now₁).1.insert [e] now₂).1.Data =
            [a, b, c, e] ∧
          (((LaserData.mkAt now₀).insert [a, b, c] now₁).1.insert [e] now₂).1.StartTime =
            (((LaserData.mkAt now₀).insert [a, b, c] now₁).1.insert [e] now₂).1.EndTime -
              4 * (1 / 1000)) ∧
      (∀ now₀ now₁,
        ((LaserData.mkAt now₀).insert [] now₁).1.StartTime =
          ((LaserData.mkAt now₀).insert [] now₁).1.EndTime) := by
  intro d samples now δ hdt
  have hmeta : metaInit.dt = Except.ok (1 / 1000) := by with_unfolding_all decide
  refine ⟨?_, ?_, ?_⟩
  · unfold LaserData.insert
    rw [hdt]
    exact ⟨rfl, rfl, rfl, by ring⟩
  · intro a b c e now₀ now₁ now₂
    unfold LaserData.insert LaserData.mkAt
    simp only [hmeta]
    norm_num
  · intro now₀ now₁
    unfold LaserData.insert LaserData.mkAt
    simp only [hmeta]
    norm_num

/-- Witness for C4 at a concrete dataset, sample list and instants. -/
theorem C4_witness :
    (LaserData.mkAt 0).MetaData.dt = Except.ok (1 / 1000) ∧
    (((LaserData.mkAt 0).insert [PyFloat.num 1] 5).1.Data =
        (LaserData.mkAt 0).Data ++ [PyFloat.num 1] ∧
      ((LaserData.mkAt 0).insert [PyFloat.num 1] 5).2 = none ∧
      ((LaserData.mkAt 0).insert [PyFloat.num 1] 5).1.EndTime = 5 ∧
      ((LaserData.mkAt 0).insert [PyFloat.num 1] 5).1.StartTime =
        ((LaserData.mkAt 0).insert [PyFloat.num 1] 5).1.EndTime -
          (((LaserData.mkAt 0).insert [PyFloat.num 1] 5).1.Data.length : ℚ) *
            (1 / 1000)) :=
  ⟨by with_unfolding_all decide,
    (C4_insert_invariant (LaserData.mkAt 0) [PyFloat.num 1] 5 (1 / 1000)
      (by with_unfolding_all decide)).1⟩

/-- Reduction of `parse_insert` when all pipeline tokens parse. -/
theorem parse_insert_of_floatList_some (d : LaserData) (s : LChar) (now δ : ℚ)
    (vals : List PyFloat) (hfl : floatList (pipelineTokens s) = some vals)
    (hdt : d.MetaData.dt = Except.ok δ) :
    d.parse_insert s now = Except.ok
      ({ d with
          Data := d.Data ++ vals,
          EndTime := now,
          StartTime := now - ((d.Data ++ vals).length : ℚ) * δ }, none) := by
  unfold LaserData.parse_insert
  rw [hfl]
  show (match d.insert vals now with
    | (d', none) => Except.ok (d', none)
    | (d', some PyErr.valueError) =>
      Except.ok (d', some (Warn.invalidList (vals.take 10)
        (vals.drop (vals.length - 10))))
    | (_, some e) => Except.error e) = _
  unfold LaserData.insert
  rw [hdt]

/-- Reduction of `parse_insert` when some pipeline token fails to parse. -/
theorem parse_insert_of_floatList_none (d : LaserData) (s : LChar) (now : ℚ)
    (hfl : floatList (pipelineTokens s) = none) :
    d.parse_insert s now =
      Except.ok (d, some (Warn.invalidStr (s.take 10) (takeRight s 10))) := by
  unfold LaserData.parse_insert
  rw [hfl]

/-- C6: a raw frame each of whose sample tokens is either numeric (accepted
by `float`) or the sentinel `"FFFFFFF"` is ingested without warning, appending
one value per token in order: NaN for each sentinel token, the parsed value
for each numeric token, with the timestamps advanced per the `insert`
invariant. -/
theorem C6_sentinel_frames :
    ∀ (d : LaserData) (s : LChar) (now δ : ℚ),
      d.MetaData.dt = Except.ok δ →
      (∀ t ∈ sampleTokens s, t = sentinel ∨ (pyFloat? t).isSome = true) →
      d.parse_insert s now =
        Except.ok ({ d with
          Data := d.Data ++ (sampleTokens s).map claimValue,
          EndTime := now,
          StartTime := now -
            ((d.Data.length + (sampleTokens s).length : ℕ) : ℚ) * δ }, none) := by
  intro d s now δ hdt hyp
  have hkey : ∀ t ∈ sampleTokens s,
      pyFloat? (pyReplace sentinel nanStr t) = some (claimValue t) := by
    intro t ht
    rcases hyp t ht with h1 | h2
    · subst h1
      rw [show pyReplace sentinel nanStr sentinel = nanStr from by
          with_unfolding_all decide,
        show pyFloat? nanStr = some PyFloat.nan from by decide,
        show claimValue sentinel = PyFloat.nan from by decide]
    · obtain ⟨v, hv⟩ := Option.isSome_iff_exists.mp h2
      rw [pyReplace_eq_self_of_pyFloat t v hv, hv]
      unfold claimValue
      rw [if_neg (fun hts => by
        subst hts
        rw [show pyFloat? sentinel = none from by decide] at hv
        cases hv)]
      rw [hv]
      rfl
  have hfl : floatList (pipelineTokens s) = some ((sampleTokens s).map claimValue) := by
    rw [pipelineTokens_eq_map]
    exact floatList_map _ claimValue (sampleTokens s) hkey
  rw [parse_insert_of_floatList_some d s now δ _ hfl hdt]
  have hlen : ((d.Data ++ (sampleTokens s).map claimValue).length : ℚ) =
      ((d.Data.length + (sampleTokens s).length : ℕ) : ℚ) := by
    rw [List.length_append, List.length_map]
  rw [hlen]

/-- Witness for C6: `ingest("meta,1.0,2.0,FFFFFFF,3.0")` from a fresh dataset
appends `[1.0, 2.0, NaN, 3.0]` with no warning. -/
theorem C6_witness :
    (LaserData.mkAt 0).MetaData.dt = Except.ok (1 / 1000) ∧
    (∀ t ∈ sampleTokens "meta,1.0,2.0,FFFFFFF,3.0".data,
      t = sentinel ∨ (pyFloat? t).isSome = true) ∧
    (LaserData.mkAt 0).parse_insert "meta,1.0,2.0,FFFFFFF,3.0".data 2 =
      Except.ok ({ LaserData.mkAt 0 with
        Data := (LaserData.mkAt 0).Data ++
          (sampleTokens "meta,1.0,2.0,FFFFFFF,3.0".data).map claimValue,
        EndTime := 2,
        StartTime := 2 -
          (((LaserData.mkAt 0).Data.length +
            (sampleTokens "meta,1.0,2.0,FFFFFFF,3.0".data).length : ℕ) : ℚ) *
            (1 / 1000) }, none) ∧
    (sampleTokens "meta,1.0,2.0,FFFFFFF,3.0".data).map claimValue =
      [PyFloat.num 1, PyFloat.num 2, PyFloat.nan, PyFloat.num 3] :=
  ⟨by with_unfolding_all decide,
    by decide,
    C6_sentinel_frames (LaserData.mkAt 0) "meta,1.0,2.0,FFFFFFF,3.0".data 2 (1 / 1000)
      (by with_unfolding_all decide) (by decide),
    by with_unfolding_all decide⟩

/-- C5 counterexample: the claim as stated is false on the code.  First, a
sample token that is neither numeric nor the sentinel — the sentinel padded
with a space — does not cause rejection: the global substring replacement
turns it into `" nan"`, which `float` accepts, so the frame is inserted with
no warning.  Second, the warning payload of a genuinely rejected frame is the
first and last 10 characters of the raw frame, not its first and last 10 raw
tokens. -/
theorem C5_counterexample :
    (" FFFFFFF".data ∈ sampleTokens "meta, FFFFFFF,1.0".data ∧
      pyFloat? " FFFFFFF".data = none ∧ " FFFFFFF".data ≠ sentinel) ∧
    (LaserData.mkAt 0).parse_insert "meta, FFFFFFF,1.0".data 1 =
      Except.ok (⟨[PyFloat.nan, PyFloat.num 1], metaInit, 1 - 2 * (1 / 1000), 1⟩,
        none) ∧
    (LaserData.mkAt 0).parse_insert "meta,1.0,oops,3.0".data 1 =
      Except.ok (LaserData.mkAt 0,
        some (Warn.invalidStr "meta,1.0,o".data "0,oops,3.0".data)) ∧
    "meta,1.0,o".data ≠
      joinComma ((pySplit ',' "meta,1.0,oops,3.0".data).take 10) ∧
    "0,oops,3.0".data ≠
      joinComma (takeRight10L (pySplit ',' "meta,1.0,oops,3.0".data)) := by
  refine ⟨⟨by decide, by decide, by decide⟩, ?_, ?_, by decide, by decide⟩
  · with_unfolding_all decide
  · with_unfolding_all decide

/-- C5 (amended): for every raw frame in which some sample token still fails
`float` after the global sentinel substitution, ingest rejects the whole
frame — the state (buffer and both timestamps) is returned unchanged — and
reports a recoverable warning carrying the first and last 10 characters of
the raw frame. -/
theorem C5_reject_frames :
    ∀ (d : LaserData) (s : LChar) (now : ℚ) (t : LChar),
      t ∈ sampleTokens s →
      pyFloat? (pyReplace sentinel nanStr t) = none →
      d.parse_insert s now =
        Except.ok (d, some (Warn.invalidStr (s.take 10) (takeRight s 10))) := by
  intro d s now t ht hnone
  apply parse_insert_of_floatList_none
  rw [pipelineTokens_eq_map]
  exact floatList_eq_none _ _ (List.mem_map_of_mem _ ht) hnone

/-- Witness for C5 (amended) at `ingest("meta,1.0,oops,3.0")`. -/
theorem C5_witness :
    "oops".data ∈ sampleTokens "meta,1.0,oops,3.0".data ∧
    pyFloat? (pyReplace sentinel nanStr "oops".data) = none ∧
    (LaserData.mkAt 0).parse_insert "meta,1.0,oops,3.0".data 1 =
      Except.ok (LaserData.mkAt 0, some (Warn.invalidStr
        ("meta,1.0,oops,3.0".data.take 10)
        (takeRight "meta,1.0,oops,3.0".data 10))) :=
  ⟨by decide, by with_unfolding_all decide,
    C5_reject_frames (LaserData.mkAt 0) "meta,1.0,oops,3.0".data 1 "oops".data
      (by decide) (by with_unfolding_all decide)⟩

theorem zipWith_get?_bind {α β γ : Type} (f : α → β → γ) (l1 : List α)
    (l2 : List β) (j : ℕ) :
    (List.zipWith f l1 l2).get? j =
      (l1.get? j).bind (fun a => (l2.get? j).map (fun b => f a b)) := by
  rw [List.get?_zipWith]
  cases l1.get? j <;> cases l2.get? j <;> rfl

/-- C7: for every state and every valid index `i`, `change_program i` raises
nothing, and the resolved configuration afterwards has exactly the template's
keys in declared order, with the value at each position being the template
prefix concatenated with the selected program's value at that position. -/
theorem C7_resolved_config :
    ∀ (m : LaserMetaData) (i : ℤ), 0 ≤ i → i < (Programs.length : ℤ) →
      ∃ prog, pyIndex Programs i = some prog ∧
        (LaserMetaData.change_program i m).2 = none ∧
        ∃ cfg, (LaserMetaData.change_program i m).1.CurrentConfig = some cfg ∧
          cfg.map Prod.fst = RawConfig.map Prod.fst ∧
          ∀ j : ℕ, cfg.get? j = (RawConfig.get? j).bind
            (fun kp => (prog.get? j).map (fun v => (kp.1, kp.2 ++ v))) := by
  intro m i h0 h1
  have hlen : (Programs.length : ℤ) = 1 := by decide
  have hi : i = 0 := by omega
  subst hi
  refine ⟨Programs.getD 0 [], by decide, ?_⟩
  have hcc : ∀ m' : LaserMetaData, m'.CurrentProgram = 0 →
      m'.CurrentConfig = some (List.zipWith (fun kp v => (kp.1, kp.2 ++ v))
        RawConfig (Programs.getD 0 [])) := by
    intro m' hm'
    unfold LaserMetaData.CurrentConfig
    rw [hm', show pyIndex Programs (0 : ℤ) = some (Programs.getD 0 []) from by decide]
    rfl
  have hstep : LaserMetaData.change_program 0 m =
      (updateFields { m with CurrentProgram := 0 }
        (List.zipWith (fun kp v => (kp.1, kp.2 ++ v)) RawConfig (Programs.getD 0 [])),
        none) := by
    unfold LaserMetaData.change_program
    rw [if_neg (by decide : ¬ (0 : ℤ) ≥ (Programs.length : ℤ)),
      hcc { m with CurrentProgram := 0 } rfl]
  rw [hstep]
  refine ⟨rfl, _, hcc _ rfl, by decide, ?_⟩
  intro j
  exact zipWith_get?_bind _ RawConfig (Programs.getD 0 []) j

/-- Witness for C7 at index 0 and the default state. -/
theorem C7_witness :
    (0 : ℤ) ≤ 0 ∧ (0 : ℤ) < (Programs.length : ℤ) ∧
    ∃ prog, pyIndex Programs (0 : ℤ) = some prog ∧
      (LaserMetaData.change_program 0 metaInit).2 = none ∧
      ∃ cfg, (LaserMetaData.change_program 0 metaInit).1.CurrentConfig = some cfg ∧
        cfg.map Prod.fst = RawConfig.map Prod.fst ∧
        ∀ j : ℕ, cfg.get? j = (RawConfig.get? j).bind
          (fun kp => (prog.get? j).map (fun v => (kp.1, kp.2 ++ v))) :=
  ⟨le_rfl, by decide,
    C7_resolved_config metaInit 0 le_rfl (by decide)⟩

/-- C8 counterexample: the claim says the returned data is the buffer with
zero substituted exactly at the NaN positions and all other samples
unchanged.  `np.nan_to_num` also replaces infinities with the largest finite
double, so a buffer `[NaN, inf]` comes back as `[0, 1.7976931348623157e308]`,
not the claimed `[0, inf]`. -/
theorem C8_counterexample :
    (⟨[PyFloat.nan, PyFloat.inf], metaInit, 0, 0⟩ : LaserData).has_nan = true ∧
    ((⟨[PyFloat.nan, PyFloat.inf], metaInit, 0, 0⟩ : LaserData).timeseries).map
        (fun p => (p.1.data, p.2)) =
      Except.ok ([PyFloat.num 0, PyFloat.num maxFloat], some Warn.dataQuality) ∧
    ([PyFloat.num 0, PyFloat.num maxFloat] : List PyFloat) ≠
      [PyFloat.num 0, PyFloat.inf] := by
  refine ⟨by decide, by decide, by decide⟩

/-- C8 (amended): when the buffer holds a NaN, `timeseries` raises the
recoverable data-quality warning and returns the buffer mapped through
`nan_to_num` — zero at NaN positions, the largest finite double (±maxFloat)
at infinite positions — leaving every finite sample unchanged; without a NaN
the buffer is passed through untouched with no warning.  The conversion reads
the state only, so it commutes with itself (repeated calls agree). -/
theorem C8_timeseries_substitution :
    ∀ (d : LaserData) (δ : ℚ), d.MetaData.dt = Except.ok δ →
      (d.has_nan = true →
        d.timeseries = Except.ok (⟨d.Data.map nanToNum, d.StartTime, δ⟩,
          some Warn.dataQuality) ∧
        (∀ (j : ℕ) (q : ℚ), d.Data.get? j = some (PyFloat.num q) →
          (d.Data.map nanToNum).get? j = some (PyFloat.num q)) ∧
        (∀ j : ℕ, d.Data.get? j = some PyFloat.nan →
          (d.Data.map nanToNum).get? j = some (PyFloat.num 0))) ∧
      (d.has_nan = false →
        d.timeseries = Except.ok (⟨d.Data, d.StartTime, δ⟩, none)) := by
  intro d δ hdt
  constructor
  · intro hnan
    refine ⟨?_, ?_, ?_⟩
    · unfold LaserData.timeseries
      rw [hdt]
      show (if d.has_nan then _ else _) = _
      rw [if_pos hnan]
    · intro j q hj
      rw [List.get?_map, hj]
      rfl
    · intro j hj
      rw [List.get?_map, hj]
      rfl
  · intro hnonan
    unfold LaserData.timeseries
    rw [hdt]
    show (if d.has_nan then _ else _) = _
    rw [if_neg (by rw [hnonan]; simp)]

/-- Witness for C8 (amended) on a buffer `[NaN, 3.0]`. -/
theorem C8_witness :
    (⟨[PyFloat.nan, PyFloat.num 3], metaInit, 7, 8⟩ : LaserData).MetaData.dt =
      Except.ok (1 / 1000) ∧
    (⟨[PyFloat.nan, PyFloat.num 3], metaInit, 7, 8⟩ : LaserData).has_nan = true ∧
    (⟨[PyFloat.nan, PyFloat.num 3], metaInit, 7, 8⟩ : LaserData).timeseries =
      Except.ok
        (⟨([PyFloat.nan, PyFloat.num 3] : List PyFloat).map nanToNum, 7, 1 / 1000⟩,
          some Warn.dataQuality) :=
  ⟨by with_unfolding_all decide, by decide,
    ((C8_timeseries_substitution ⟨[PyFloat.nan, PyFloat.num 3], metaInit, 7, 8⟩
      (1 / 1000) (by with_unfolding_all decide)).1 (by decide)).1⟩

end SDMS
